import Mathlib

/-!
# Food delivery catalog, hash index and order queue (`sem4project.cpp`)

A shallow embedding of the data-structure layer of `sem4project.cpp`:
the linked catalog of `FoodItem`s with its in-place merge sort, the chained
`HashTable` from ids to catalog nodes, the `OrderQueue`, and the
`FoodDeliverySystem` operations that keep catalog and index together.

Conventions of the embedding.

* A heap object is designated by its address (`Ptr`); a nullable pointer is an
  `Option Ptr`, with `none` for `nullptr`.
* A chain of nodes that is reached through one head pointer and linked by
  `next` is the list of its nodes, first node first (catalog, hash chains).
  The order queue keeps a second pointer (`rear`) into its chain, so its nodes
  are modelled in an explicit node store.
* An operation whose C++ behaviour can be undefined (indexing outside the
  bucket array, overflow of the `int` id counter, a read or an assignment
  through a pointer to a released object) returns an `Option`: `none` stands
  for undefined behaviour, `some r` for a run that completes with result `r`.
* Console input and output are not modelled: an operation receives the values
  the prompts deliver and returns the status that its message reports. What
  an output line reads through a pointer is modelled as far as the read can
  be undefined: the order queue holds pointers to `FoodItem` objects that it
  does not own, and its operations read `item->name` and `item->id` for
  their output, so they receive the set of the addresses at which a
  `FoodItem` lives (`live`) and are undefined when they read elsewhere.
-/

namespace Sem4

/-! ## Data -/

/-- Address of a heap object. -/
abbrev Ptr := Nat

/-- The node `struct FoodItem`: `addr` is the address of the object (what a
`FoodItem*` designates), `id`, `name`, `price` are its fields. The `next`
field is represented by the position of the node in its list. The standard
extraction `cin >> price` accepts digits, sign, point and exponent only, so a
price is a finite `double`; `<=` on finite doubles is the order of the
rationals they denote, and no arithmetic is done on prices. -/
structure FoodItem where
  addr : Ptr
  id : Int
  name : String
  price : ℚ
deriving DecidableEq

/-- The node `struct HashNode`: `key` is the food id, `value` the address of
the `FoodItem`; `next` is the position in the bucket's chain. -/
structure HashNode where
  key : Int
  value : Ptr
deriving DecidableEq

/-- `const int HASH_TABLE_SIZE = 47;` -/
def HASH_TABLE_SIZE : Nat := 47

/-- Largest value of the 32-bit `int` that holds `nextId`. -/
def INT_MAX : Int := 2147483647

/-! ## Merge sort on the catalog list -/

/-- The loop `while (fast != nullptr)` of `splitList`. `fast` is the chain the
fast pointer designates, `slow` the number of `next` steps the slow pointer
has made from `source`; the result is that number when the loop ends. -/
def splitListLoop (slow : Nat) : List FoodItem → Nat
  | [] => slow
  | _ :: fast1 =>
    match fast1 with
    | [] => slow
    | _ :: fast2 => splitListLoop (slow + 1) fast2

/-- `splitList(source, &front, &back)`: the pair `(front, back)`. The chain is
cut after the node the slow pointer ends on. -/
def splitList (source : List FoodItem) : List FoodItem × List FoodItem :=
  match source with
  | [] => ([], [])
  | [x] => ([x], [])
  | x :: y :: rest =>
    let slow := splitListLoop 0 (y :: rest)
    ((x :: y :: rest).take (slow + 1), (x :: y :: rest).drop (slow + 1))

/-- `mergeSortedLists(a, b)`: the head of `a` is taken when its price is less
than or equal to the price of the head of `b`. -/
def mergeSortedLists : List FoodItem → List FoodItem → List FoodItem
  | [], b => b
  | a, [] => a
  | x :: a, y :: b =>
    if x.price ≤ y.price then x :: mergeSortedLists a (y :: b)
    else y :: mergeSortedLists (x :: a) b

/-- `mergeSort(&head)`: the sorted chain that `*headRef` designates on return. -/
def mergeSort : List FoodItem → List FoodItem
  | [] => []
  | [x] => [x]
  | x :: y :: rest =>
    mergeSortedLists (mergeSort (splitList (x :: y :: rest)).1)
      (mergeSort (splitList (x :: y :: rest)).2)
termination_by l => l.length
decreasing_by
  all_goals
    have loop : ∀ (n : Nat) (fast : List FoodItem) (slow : Nat), fast.length ≤ n →
        splitListLoop slow fast ≤ slow + fast.length / 2 := by
      intro n
      induction n with
      | zero =>
        intro fast slow h
        cases fast with
        | nil => simp [splitListLoop]
        | cons _ _ => simp at h
      | succ n ih =>
        intro fast slow h
        cases fast with
        | nil => simp [splitListLoop]
        | cons _ fast1 =>
          cases fast1 with
          | nil => simp [splitListLoop]
          | cons _ fast2 =>
            have := ih fast2 (slow + 1) (by simp only [List.length_cons] at h; omega)
            simp only [splitListLoop, List.length_cons]
            omega
    have := loop _ (y :: rest) 0 (Nat.le_refl _)
    simp only [splitList, List.length_take, List.length_drop, List.length_cons] at this ⊢
    omega

/-- The comparison `a->price <= b->price` of `mergeSortedLists`. -/
def priceLE (a b : FoodItem) : Bool := decide (a.price ≤ b.price)

/-! ## The hash table -/

/-- The class `HashTable`: `table` holds the chain of every bucket, bucket
`i` at position `i`. -/
structure HashTable where
  table : List (List HashNode)
deriving DecidableEq

/-- The constructor `HashTable()`: `HASH_TABLE_SIZE` empty buckets. -/
def HashTable.init : HashTable :=
  ⟨List.replicate HASH_TABLE_SIZE []⟩

/-- `hashFunction(key)`: `key % HASH_TABLE_SIZE`. The C++ remainder truncates
towards zero and has the sign of `key`. -/
def HashTable.hashFunction (key : Int) : Int :=
  Int.tmod key HASH_TABLE_SIZE

/-- The read `table[index]`: the chain of the bucket, `none` when `index` lies
outside the array. -/
def HashTable.bucket (t : HashTable) (index : Int) : Option (List HashNode) :=
  if 0 ≤ index then t.table[index.toNat]? else none

/-- The scan of a chain in `search`: the value of the first node whose key is
`key`, `none` (`nullptr`) when the chain is exhausted. -/
def HashTable.searchChain (key : Int) : List HashNode → Option Ptr
  | [] => none
  | entry :: rest =>
    if entry.key = key then some entry.value else HashTable.searchChain key rest

/-- The scan and unlink of `remove`: the chain without the first node whose
key is `key`, `none` when the scan reaches the end of the chain. -/
def HashTable.removeChain (key : Int) : List HashNode → Option (List HashNode)
  | [] => none
  | entry :: rest =>
    if entry.key = key then some rest
    else
      match HashTable.removeChain key rest with
      | none => none
      | some chain => some (entry :: chain)

/-- `insert(key, food)`: the new node becomes the first node of its bucket. -/
def HashTable.insert (t : HashTable) (key : Int) (food : Ptr) : Option HashTable :=
  let index := HashTable.hashFunction key
  let newNode : HashNode := ⟨key, food⟩
  match t.bucket index with
  | none => none
  | some chain =>
    if chain.isEmpty then some ⟨t.table.set index.toNat [newNode]⟩
    else some ⟨t.table.set index.toNat (newNode :: chain)⟩

/-- `search(key)`: the outer `Option` is `none` when the bucket index lies
outside the array; the inner one is the returned pointer. -/
def HashTable.search (t : HashTable) (key : Int) : Option (Option Ptr) :=
  match t.bucket (HashTable.hashFunction key) with
  | none => none
  | some chain => some (HashTable.searchChain key chain)

/-- `remove(key)`: unlinks the first node with this key from its bucket, and
returns at once when the bucket holds no such node. -/
def HashTable.remove (t : HashTable) (key : Int) : Option HashTable :=
  let index := HashTable.hashFunction key
  match t.bucket index with
  | none => none
  | some chain =>
    match HashTable.removeChain key chain with
    | none => some t
    | some chain1 => some ⟨t.table.set index.toNat chain1⟩

/-! ## The catalog -/

/-- What an operation reports to the console. -/
inductive Status where
  | success
  | notFound
  | emptyMenu
  | invalidItem
deriving DecidableEq

/-- The class `FoodDeliverySystem`: the catalog chain `head`, the hash table
and the id counter. `allocated` is the number of `FoodItem` objects created
so far: `new FoodItem` yields a fresh address, that of no earlier object. -/
structure FoodDeliverySystem where
  head : List FoodItem
  itemHashTable : HashTable
  nextId : Int
  allocated : Ptr
deriving DecidableEq

/-- The constructor `FoodDeliverySystem()`. -/
def FoodDeliverySystem.init : FoodDeliverySystem :=
  { head := [], itemHashTable := HashTable.init, nextId := 1, allocated := 0 }

/-- The addresses at which a `FoodItem` lives: those of the nodes of the
catalog chain. `addFood` is the only place that creates a `FoodItem`, and it
links the new node into the chain; `deleteFood` unlinks a node and releases
it. -/
def FoodDeliverySystem.live (s : FoodDeliverySystem) (a : Ptr) : Bool :=
  s.head.any (fun f => decide (f.addr = a))

/-- `addFood()` with the name and the price that the prompts deliver: the
state afterwards and the id assigned. `nextId++` overflows at `INT_MAX`. -/
def FoodDeliverySystem.addFood (s : FoodDeliverySystem) (name : String) (price : ℚ) :
    Option (FoodDeliverySystem × Int) :=
  if s.nextId < INT_MAX then
    let id := s.nextId
    let newFood : FoodItem := ⟨s.allocated, id, name, price⟩
    match s.itemHashTable.insert id newFood.addr with
    | none => none
    | some t =>
      some ({ head := newFood :: s.head, itemHashTable := t, nextId := id + 1,
              allocated := s.allocated + 1 }, id)
  else none

/-- The assignments `itemToEdit->name = ...; itemToEdit->price = ...` through
the pointer `p`: `none` when `p` designates no node of the chain. -/
def FoodDeliverySystem.assign (p : Ptr) (name : String) (price : ℚ) (l : List FoodItem) :
    Option (List FoodItem) :=
  if l.any (fun f => f.addr = p) then
    some (l.map (fun f => if f.addr = p then { f with name := name, price := price } else f))
  else none

/-- `editFood(id)` with the new name and price that the prompts deliver. -/
def FoodDeliverySystem.editFood (s : FoodDeliverySystem) (id : Int) (name : String)
    (price : ℚ) : Option (FoodDeliverySystem × Status) :=
  match s.itemHashTable.search id with
  | none => none
  | some none => some (s, Status.notFound)
  | some (some itemToEdit) =>
    match FoodDeliverySystem.assign itemToEdit name price s.head with
    | none => none
    | some l => some ({ s with head := l }, Status.success)

/-- The scan and unlink of `deleteFood`: the chain without the first node
whose id is `id`, `none` when the scan reaches the end of the chain. -/
def FoodDeliverySystem.unlink (id : Int) : List FoodItem → Option (List FoodItem)
  | [] => none
  | current :: rest =>
    if current.id = id then some rest
    else
      match FoodDeliverySystem.unlink id rest with
      | none => none
      | some l => some (current :: l)

/-- `deleteFood(id)`. -/
def FoodDeliverySystem.deleteFood (s : FoodDeliverySystem) (id : Int) :
    Option (FoodDeliverySystem × Status) :=
  if s.head.isEmpty then some (s, Status.emptyMenu)
  else
    match FoodDeliverySystem.unlink id s.head with
    | none => some (s, Status.notFound)
    | some l =>
      match s.itemHashTable.remove id with
      | none => none
      | some t => some ({ s with head := l, itemHashTable := t }, Status.success)

/-- `sortMenuByPrice()`. -/
def FoodDeliverySystem.sortMenuByPrice (s : FoodDeliverySystem) : FoodDeliverySystem :=
  match s.head with
  | [] => s
  | [_] => s
  | _ :: _ :: _ => { s with head := mergeSort s.head }

/-- `findFoodById(id)`. -/
def FoodDeliverySystem.findFoodById (s : FoodDeliverySystem) (id : Int) :
    Option (Option Ptr) :=
  s.itemHashTable.search id

/-- `std::string::find(key)` of the C++ standard library on the characters of
a string: the position of the first occurrence of `key`, `none` for `npos`. -/
def stringFind (key : List Char) : List Char → Option Nat
  | [] => if key.isEmpty then some 0 else none
  | c :: rest =>
    if key.isPrefixOf (c :: rest) then some 0
    else
      match stringFind key rest with
      | none => none
      | some pos => some (pos + 1)

/-- The loop of `searchFoodByName`: `temp` walks the chain, `printed` holds
the `Found` lines written so far and `found` is the flag of the source. -/
def FoodDeliverySystem.searchLoop (key : String) :
    List FoodItem → List FoodItem → Bool → List FoodItem × Bool
  | [], printed, found => (printed, found)
  | temp :: rest, printed, found =>
    if (stringFind key.data temp.name.data).isSome then
      FoodDeliverySystem.searchLoop key rest (printed ++ [temp]) true
    else FoodDeliverySystem.searchLoop key rest printed found

/-- `searchFoodByName(key)`: the entries of the `Found` lines in the order
they are written, and the final value of `found` (when it is `false` the
line `No food items found` is written). -/
def FoodDeliverySystem.searchFoodByName (s : FoodDeliverySystem) (key : String) :
    List FoodItem × Bool :=
  FoodDeliverySystem.searchLoop key s.head [] false

/-! ## Sequences of catalog calls -/

/-- One call on the catalog, as the menu of `main` issues it. -/
inductive Op where
  | addFood (name : String) (price : ℚ)
  | editFood (id : Int) (name : String) (price : ℚ)
  | deleteFood (id : Int)
  | sortMenuByPrice
deriving DecidableEq

/-- One call: the state afterwards and the ids that the call assigned. -/
def FoodDeliverySystem.step (s : FoodDeliverySystem) : Op →
    Option (FoodDeliverySystem × List Int)
  | Op.addFood name price =>
    match s.addFood name price with
    | none => none
    | some (s1, id) => some (s1, [id])
  | Op.editFood id name price =>
    match s.editFood id name price with
    | none => none
    | some (s1, _) => some (s1, [])
  | Op.deleteFood id =>
    match s.deleteFood id with
    | none => none
    | some (s1, _) => some (s1, [])
  | Op.sortMenuByPrice => some (s.sortMenuByPrice, [])

/-- A sequence of calls: the final state and the ids assigned, in the order
of the calls. -/
def FoodDeliverySystem.run (s : FoodDeliverySystem) : List Op →
    Option (FoodDeliverySystem × List Int)
  | [] => some (s, [])
  | op :: ops =>
    match s.step op with
    | none => none
    | some (s1, ids1) =>
      match FoodDeliverySystem.run s1 ops with
      | none => none
      | some (s2, ids2) => some (s2, ids1 ++ ids2)

/-- Number of `addFood` calls in a sequence. -/
def Op.countAdds : List Op → Nat
  | [] => 0
  | Op.addFood _ _ :: ops => Op.countAdds ops + 1
  | _ :: ops => Op.countAdds ops

/-- The ids `first, first + 1, ..., first + n - 1`. -/
def idsFrom (first : Int) : Nat → List Int
  | 0 => []
  | n + 1 => first :: idsFrom (first + 1) n

/-- Calls that fill the catalog used in the concrete checks below. -/
def exampleOps : List Op :=
  [Op.addFood "Tea" 2, Op.addFood "Bun" 1, Op.addFood "Milk" 2]

/-- The catalog after `exampleOps` on a new system: Milk (id 3), Bun (id 2),
Tea (id 1), most recently added first. -/
def exampleCatalog : FoodDeliverySystem :=
  match FoodDeliverySystem.init.run exampleOps with
  | some (s, _) => s
  | none => FoodDeliverySystem.init

/-! ## The order queue -/

/-- The node `struct OrderNode`: the address of the ordered `FoodItem` and the
address of the next node of the queue. -/
structure OrderNode where
  item : Ptr
  next : Option Ptr
deriving DecidableEq

/-- The class `OrderQueue`: the pointers `front` and `rear`, and the store of
the `OrderNode` objects (`nodes a` is the node at address `a`, `none` when no
node lives there). `allocated` counts the nodes created so far: `new
OrderNode` yields a fresh address. -/
structure OrderQueue where
  nodes : Ptr → Option OrderNode
  front : Option Ptr
  rear : Option Ptr
  allocated : Ptr

/-- The constructor `OrderQueue()`. -/
def OrderQueue.init : OrderQueue :=
  { nodes := fun _ => none, front := none, rear := none, allocated := 0 }

/-- `addOrder(item)`. `live a` tells whether a `FoodItem` lives at the address
`a`. After the null check the node is created and linked behind `rear`, and
the closing output line reads `item->name`: undefined when no `FoodItem`
lives at `item`. -/
def OrderQueue.addOrder (q : OrderQueue) (live : Ptr → Bool) (item : Option Ptr) :
    Option (OrderQueue × Status) :=
  match item with
  | none => some (q, Status.invalidItem)
  | some it =>
    let newOrder := q.allocated
    let nodes1 := Function.update q.nodes newOrder (some ⟨it, none⟩)
    match q.rear with
    | none =>
      if live it then
        some ({ nodes := nodes1, front := some newOrder, rear := some newOrder,
                allocated := q.allocated + 1 }, Status.success)
      else none
    | some r =>
      match nodes1 r with
      | none => none
      | some rearNode =>
        if live it then
          some ({ nodes := Function.update nodes1 r (some { rearNode with next := some newOrder }),
                  front := q.front, rear := some newOrder,
                  allocated := q.allocated + 1 }, Status.success)
        else none

/-- `dispatchOrder()`: the queue afterwards and the item of the node that was
removed, `none` when the queue is empty. Before it unlinks the front node the
function prints `temp->item->name`: undefined when no `FoodItem` lives at the
item of the front node. -/
def OrderQueue.dispatchOrder (q : OrderQueue) (live : Ptr → Bool) :
    Option (OrderQueue × Option Ptr) :=
  match q.front with
  | none => some (q, none)
  | some temp =>
    match q.nodes temp with
    | none => none
    | some node =>
      if live node.item then
        some ({ nodes := Function.update q.nodes temp none,
                front := node.next,
                rear := if node.next = none then none else q.rear,
                allocated := q.allocated }, some node.item)
      else none

/-- The items of the nodes that `next` links from the node `temp`, at most
`fuel` nodes far. -/
def OrderQueue.walk (nodes : Ptr → Option OrderNode) : Nat → Option Ptr → List Ptr
  | 0, _ => []
  | _ + 1, none => []
  | fuel + 1, some temp =>
    match nodes temp with
    | none => []
    | some node => node.item :: OrderQueue.walk nodes fuel node.next

/-- The contents of the queue: the items of the pending orders, from `front`
on, oldest first. The chain holds no more nodes than were ever created. -/
def OrderQueue.pending (q : OrderQueue) : List Ptr :=
  OrderQueue.walk q.nodes q.allocated q.front

/-- The loop `while (temp)` of `displayOrders` from the node `temp`, at most
`fuel` nodes far: every pass prints `temp->item->id` and `temp->item->name`,
undefined when no `FoodItem` lives at the item of the node. The result is the
list of the items printed. -/
def OrderQueue.displayLoop (nodes : Ptr → Option OrderNode) (live : Ptr → Bool) :
    Nat → Option Ptr → Option (List Ptr)
  | 0, _ => some []
  | _ + 1, none => some []
  | fuel + 1, some temp =>
    match nodes temp with
    | none => none
    | some node =>
      if live node.item then
        match OrderQueue.displayLoop nodes live fuel node.next with
        | none => none
        | some rest => some (node.item :: rest)
      else none

/-- `displayOrders()`: the items listed, the empty list for the empty queue.
The chain holds no more nodes than were ever created. -/
def OrderQueue.displayOrders (q : OrderQueue) (live : Ptr → Bool) : Option (List Ptr) :=
  OrderQueue.displayLoop q.nodes live q.allocated q.front

/-- `addOrder` for each pointer of a list in turn. -/
def OrderQueue.addOrders (q : OrderQueue) (live : Ptr → Bool) :
    List (Option Ptr) → Option OrderQueue
  | [] => some q
  | item :: items =>
    match q.addOrder live item with
    | none => none
    | some (q1, _) => OrderQueue.addOrders q1 live items

/-- `dispatchOrder` `n` times in turn: the queue afterwards and what each call
removed. -/
def OrderQueue.dispatchOrders (q : OrderQueue) (live : Ptr → Bool) :
    Nat → Option (OrderQueue × List (Option Ptr))
  | 0 => some (q, [])
  | n + 1 =>
    match q.dispatchOrder live with
    | none => none
    | some (q1, r) =>
      match OrderQueue.dispatchOrders q1 live n with
      | none => none
      | some (q2, rs) => some (q2, r :: rs)

/-! ## Representation predicates -/

/-- The nodes at the addresses `as`, linked by `next` from the pointer `p` to
`nullptr`, hold the items `items`. -/
inductive OrderQueue.Chain (nodes : Ptr → Option OrderNode) :
    Option Ptr → List Ptr → List Ptr → Prop where
  | nil : OrderQueue.Chain nodes none [] []
  | cons {a : Ptr} {it : Ptr} {nxt : Option Ptr} {as items : List Ptr} :
      nodes a = some ⟨it, nxt⟩ → OrderQueue.Chain nodes nxt as items →
      OrderQueue.Chain nodes (some a) (a :: as) (it :: items)

/-- The queue is well formed and its pending orders are `items`, oldest
first: `front` leads through distinct live nodes to `nullptr`, and `rear`
designates the last of them. -/
def OrderQueue.Holds (q : OrderQueue) (items : List Ptr) : Prop :=
  ∃ as : List Ptr, OrderQueue.Chain q.nodes q.front as items ∧ as.Nodup ∧
    (∀ a ∈ as, a < q.allocated) ∧ q.rear = as.getLast?

/-- The queues that the constructor, `addOrder` and `dispatchOrder` produce,
whatever `FoodItem` objects live at the time of each call. -/
inductive OrderQueue.Reachable : OrderQueue → Prop where
  | init : OrderQueue.Reachable OrderQueue.init
  | addOrder {q q1 : OrderQueue} {live : Ptr → Bool} {item : Option Ptr} {st : Status} :
      OrderQueue.Reachable q → q.addOrder live item = some (q1, st) → OrderQueue.Reachable q1
  | dispatchOrder {q q1 : OrderQueue} {live : Ptr → Bool} {r : Option Ptr} :
      OrderQueue.Reachable q → q.dispatchOrder live = some (q1, r) → OrderQueue.Reachable q1

/-- The hash node that `addFood` inserts for a catalog entry: its id as key,
its address as value. -/
def FoodItem.node (f : FoodItem) : HashNode := ⟨f.id, f.addr⟩

/-- The invariant of `FoodDeliverySystem`: the table has its 47 buckets, the
ids of the catalog are distinct values of `1 .. nextId - 1`, the entries are
distinct objects, and the chain of bucket `i` holds, in some order, exactly
one node for every catalog entry whose id hashes to `i`. -/
structure FoodDeliverySystem.Inv (s : FoodDeliverySystem) : Prop where
  size : s.itemHashTable.table.length = HASH_TABLE_SIZE
  nextId_pos : 1 ≤ s.nextId
  nextId_le : s.nextId ≤ INT_MAX
  id_lt : ∀ f ∈ s.head, 1 ≤ f.id ∧ f.id < s.nextId
  addr_lt : ∀ f ∈ s.head, f.addr < s.allocated
  id_nodup : (s.head.map FoodItem.id).Nodup
  addr_nodup : (s.head.map FoodItem.addr).Nodup
  index : ∀ (i : Nat) (chain : List HashNode), s.itemHashTable.table[i]? = some chain →
    chain.Perm ((s.head.filter
      (fun f => decide (HashTable.hashFunction f.id = (i : Int)))).map FoodItem.node)

/-! ## The menu loop of `main` -/

/-- The two objects of `main`: the catalog `fds` and the order queue. -/
structure MainState where
  fds : FoodDeliverySystem
  orderQueue : OrderQueue

/-- The state of `main` when the menu loop starts with no initial items. -/
def MainState.init : MainState :=
  { fds := FoodDeliverySystem.init, orderQueue := OrderQueue.init }

/-- A menu choice that can change the state or read through a queued pointer:
a catalog call (choices 1, 2, 3 and 5), `Place New Order` (7) with the id
typed in, `View Pending Orders` (8), `Dispatch Next Order` (9). The choices 4
and 6 only display the catalog. -/
inductive Choice where
  | catalog (op : Op)
  | placeOrder (id : Int)
  | displayOrders
  | dispatchOrder

/-- One pass of the `switch` of `main`. Choice 7 is
`orderQueue.addOrder(fds.findFoodById(id))`. The `FoodItem` objects that live
during the call are the nodes of the catalog. -/
def MainState.step (m : MainState) : Choice → Option MainState
  | Choice.catalog op =>
    match m.fds.step op with
    | none => none
    | some (s1, _) => some { m with fds := s1 }
  | Choice.placeOrder id =>
    match m.fds.findFoodById id with
    | none => none
    | some item =>
      match m.orderQueue.addOrder m.fds.live item with
      | none => none
      | some (q1, _) => some { m with orderQueue := q1 }
  | Choice.displayOrders =>
    match m.orderQueue.displayOrders m.fds.live with
    | none => none
    | some _ => some m
  | Choice.dispatchOrder =>
    match m.orderQueue.dispatchOrder m.fds.live with
    | none => none
    | some (q1, _) => some { m with orderQueue := q1 }

/-- A sequence of menu choices. -/
def MainState.run (m : MainState) : List Choice → Option MainState
  | [] => some m
  | c :: cs =>
    match m.step c with
    | none => none
    | some m1 => MainState.run m1 cs

/-- Menu choices that leave the queue with a pointer to a released `FoodItem`:
`Add New Food Item` twice (Burger gets the id 1, Fries the id 2),
`Place New Order` with the id 1 and then with the id 2, `Delete Food Item`
with the id 1. -/
def releasedItemChoices : List Choice :=
  [Choice.catalog (Op.addFood "Burger" 5.5), Choice.catalog (Op.addFood "Fries" 2),
   Choice.placeOrder 1, Choice.placeOrder 2, Choice.catalog (Op.deleteFood 1)]

/-! ## The scenario of the specification -/

/-- The three `addFood` calls of the scenario: Burger 5.50, Fries 2.00,
Soda 1.50. -/
def scenarioOps : List Op :=
  [Op.addFood "Burger" 5.5, Op.addFood "Fries" 2, Op.addFood "Soda" 1.5]

/-- The catalog after `scenarioOps` on a new system. -/
def scenarioAdded : FoodDeliverySystem :=
  match FoodDeliverySystem.init.run scenarioOps with
  | some (s, _) => s
  | none => FoodDeliverySystem.init

/-- The scenario catalog after `sortMenuByPrice`. -/
def scenarioSorted : FoodDeliverySystem :=
  scenarioAdded.sortMenuByPrice

/-- The sorted scenario catalog after `deleteFood(2)`. -/
def scenarioDeleted : FoodDeliverySystem :=
  ((scenarioSorted.deleteFood 2).map Prod.fst).getD scenarioSorted

/-! ## Merge sort: split, and relation to the library sort -/

/-- The slow pointer makes one step for every two nodes of the fast chain. -/
theorem splitListLoop_eq :
    ∀ (fast : List FoodItem) (slow : Nat), splitListLoop slow fast = slow + fast.length / 2
  | [], slow => by simp [splitListLoop]
  | [_], slow => by simp [splitListLoop]
  | _ :: _ :: rest, slow => by
    simp only [splitListLoop, splitListLoop_eq rest, List.length_cons]
    omega

/-- On a chain of two or more nodes `splitList` cuts after `⌈n/2⌉` nodes. -/
theorem splitList_cons_cons (x y : FoodItem) (rest : List FoodItem) :
    splitList (x :: y :: rest) =
      ((x :: y :: rest).take ((rest.length + 3) / 2),
       (x :: y :: rest).drop ((rest.length + 3) / 2)) := by
  have h : splitListLoop 0 (y :: rest) + 1 = (rest.length + 3) / 2 := by
    rw [splitListLoop_eq]; simp only [List.length_cons]; omega
  simp only [splitList, h]

theorem priceLE_trans (a b c : FoodItem) : priceLE a b = true → priceLE b c = true →
    priceLE a c = true := by
  simp only [priceLE, decide_eq_true_eq]
  exact le_trans

theorem priceLE_total (a b : FoodItem) : (priceLE a b || priceLE b a) = true := by
  simp only [priceLE, Bool.or_eq_true, decide_eq_true_eq]
  exact le_total _ _

theorem mergeSortedLists_eq_merge :
    ∀ a b : List FoodItem, mergeSortedLists a b = List.merge a b priceLE
  | [], b => by simp [mergeSortedLists]
  | x :: a, [] => by simp [mergeSortedLists]
  | x :: a, y :: b => by
    rw [mergeSortedLists, List.cons_merge_cons, mergeSortedLists_eq_merge a (y :: b),
      mergeSortedLists_eq_merge (x :: a) b]
    simp [priceLE]

theorem mergeSort_eq_mergeSort : ∀ l : List FoodItem, mergeSort l = List.mergeSort l priceLE
  | [] => by simp [mergeSort]
  | [x] => by simp [mergeSort]
  | x :: y :: rest => by
    have h1 : (splitList (x :: y :: rest)).1.length < rest.length + 2 := by
      rw [splitList_cons_cons]; simp only [List.length_take, List.length_cons]; omega
    have h2 : (splitList (x :: y :: rest)).2.length < rest.length + 2 := by
      rw [splitList_cons_cons]; simp only [List.length_drop, List.length_cons]; omega
    rw [mergeSort, List.mergeSort, mergeSortedLists_eq_merge,
      mergeSort_eq_mergeSort (splitList (x :: y :: rest)).1,
      mergeSort_eq_mergeSort (splitList (x :: y :: rest)).2, splitList_cons_cons]
    simp [List.splitInTwo_fst, List.splitInTwo_snd]
termination_by l => l.length

theorem sortMenuByPrice_head (s : FoodDeliverySystem) :
    s.sortMenuByPrice.head = mergeSort s.head := by
  unfold FoodDeliverySystem.sortMenuByPrice
  split <;> rename_i h <;> simp [h, mergeSort]

theorem sortMenuByPrice_eq (s : FoodDeliverySystem) :
    s.sortMenuByPrice = { s with head := mergeSort s.head } := by
  unfold FoodDeliverySystem.sortMenuByPrice
  split <;> rename_i h
  · cases s; simp_all [mergeSort]
  · cases s; simp_all [mergeSort]
  · rfl

theorem mergeSort_pairwise (l : List FoodItem) :
    (mergeSort l).Pairwise (fun x y => x.price ≤ y.price) := by
  have h := List.sorted_mergeSort priceLE_trans priceLE_total l
  rw [← mergeSort_eq_mergeSort] at h
  exact h.imp (fun hab => by simpa [priceLE] using hab)

theorem mergeSort_perm (l : List FoodItem) : (mergeSort l).Perm l := by
  rw [mergeSort_eq_mergeSort]
  exact List.mergeSort_perm l priceLE

theorem mergeSort_of_pairwise (l : List FoodItem)
    (h : l.Pairwise (fun x y => x.price ≤ y.price)) : mergeSort l = l := by
  rw [mergeSort_eq_mergeSort]
  exact List.mergeSort_of_sorted (h.imp (fun hab => by simpa [priceLE] using hab))

theorem mergeSort_sublist (l c : List FoodItem)
    (hc : c.Pairwise (fun x y => x.price ≤ y.price)) (h : c.Sublist l) :
    c.Sublist (mergeSort l) := by
  rw [mergeSort_eq_mergeSort]
  exact List.sublist_mergeSort priceLE_trans priceLE_total
    (hc.imp (fun hab => by simpa [priceLE] using hab)) h

/-- The entries of one price stand in the sorted list in the order they had
before. -/
theorem mergeSort_filter_price (l : List FoodItem) (p : ℚ) :
    (mergeSort l).filter (fun f => decide (f.price = p)) =
      l.filter (fun f => decide (f.price = p)) := by
  have hsorted : (l.filter (fun f => decide (f.price = p))).Pairwise
      (fun x y => x.price ≤ y.price) := by
    rw [List.pairwise_iff_forall_sublist]
    intro x y hxy
    have hx := (List.mem_filter.mp (hxy.subset (List.mem_cons_self _ _))).2
    have hy := (List.mem_filter.mp
      (hxy.subset (List.mem_cons_of_mem _ (List.mem_cons_self _ _)))).2
    simp only [decide_eq_true_eq] at hx hy
    rw [hx, hy]
  have hsub := (mergeSort_sublist l _ hsorted (List.filter_sublist l)).filter
    (fun f => decide (f.price = p))
  rw [List.filter_filter] at hsub
  simp only [Bool.and_self] at hsub
  have hlen := ((mergeSort_perm l).filter (fun f => decide (f.price = p))).length_eq
  exact (hsub.eq_of_length hlen.symm).symm

/-! ## Merge sort: claims -/

/-- C2. After `sortMenuByPrice` the catalog list is non-decreasing by price:
every adjacent pair `(x, y)` has `x.price ≤ y.price`, and so has every pair
of an earlier and a later entry. -/
theorem sortMenuByPrice_sorted (s : FoodDeliverySystem) :
    s.sortMenuByPrice.head.Chain' (fun x y => x.price ≤ y.price) ∧
    s.sortMenuByPrice.head.Pairwise (fun x y => x.price ≤ y.price) := by
  rw [sortMenuByPrice_head]
  exact ⟨(mergeSort_pairwise s.head).chain', mergeSort_pairwise s.head⟩

/-- C3. `sortMenuByPrice` is stable: when `x` precedes `y` in the catalog list
(the pair `[x, y]` is a sublist of it) and both have the same price, `x`
precedes `y` in the sorted list. -/
theorem sortMenuByPrice_stable (s : FoodDeliverySystem) (x y : FoodItem)
    (hprice : x.price = y.price) (hbefore : [x, y].Sublist s.head) :
    [x, y].Sublist s.sortMenuByPrice.head := by
  rw [sortMenuByPrice_head]
  exact mergeSort_sublist s.head [x, y] (List.pairwise_pair.mpr (le_of_eq hprice)) hbefore

/-- C3 on `exampleCatalog`: Milk precedes Tea, both cost 2. -/
theorem sortMenuByPrice_stable_witness :
    (⟨2, 3, "Milk", 2⟩ : FoodItem).price = (⟨0, 1, "Tea", 2⟩ : FoodItem).price ∧
    [(⟨2, 3, "Milk", 2⟩ : FoodItem), ⟨0, 1, "Tea", 2⟩].Sublist exampleCatalog.head ∧
    [(⟨2, 3, "Milk", 2⟩ : FoodItem), ⟨0, 1, "Tea", 2⟩].Sublist
      exampleCatalog.sortMenuByPrice.head :=
  ⟨by decide, by decide,
    sortMenuByPrice_stable exampleCatalog ⟨2, 3, "Milk", 2⟩ ⟨0, 1, "Tea", 2⟩ (by decide)
      (by decide)⟩

/-- C4. `sortMenuByPrice` rearranges the entries: the sorted list is a
permutation of the list before, and a list of fewer than two entries is left
as it is. -/
theorem sortMenuByPrice_perm (s : FoodDeliverySystem) :
    s.sortMenuByPrice.head.Perm s.head ∧
    (s.head.length < 2 → s.sortMenuByPrice = s) := by
  refine ⟨by rw [sortMenuByPrice_head]; exact mergeSort_perm s.head, fun h => ?_⟩
  unfold FoodDeliverySystem.sortMenuByPrice
  split <;> rename_i hl
  · rfl
  · rfl
  · rw [hl] at h; simp only [List.length_cons] at h; omega

/-- C5. Sorting twice gives the same catalog as sorting once. -/
theorem sortMenuByPrice_idempotent (s : FoodDeliverySystem) :
    s.sortMenuByPrice.sortMenuByPrice = s.sortMenuByPrice ∧
    mergeSort (mergeSort s.head) = mergeSort s.head := by
  have h := mergeSort_of_pairwise _ (mergeSort_pairwise s.head)
  refine ⟨?_, h⟩
  rw [sortMenuByPrice_eq s.sortMenuByPrice, sortMenuByPrice_eq s]
  simp [h]

/-! ## The order queue: representation -/

theorem OrderQueue.Chain.nil_inv {nodes : Ptr → Option OrderNode} {p : Option Ptr}
    {items : List Ptr} (h : OrderQueue.Chain nodes p [] items) : p = none ∧ items = [] := by
  cases h; exact ⟨rfl, rfl⟩

theorem OrderQueue.Chain.live {nodes : Ptr → Option OrderNode} {p : Option Ptr}
    {as items : List Ptr} (h : OrderQueue.Chain nodes p as items) {r : Ptr} (hr : r ∈ as) :
    ∃ n, nodes r = some n := by
  induction h with
  | nil => simp at hr
  | cons ha _ ih =>
    rcases List.mem_cons.mp hr with e | hm
    · exact ⟨_, e ▸ ha⟩
    · exact ih hm

theorem OrderQueue.Chain.length_eq {nodes : Ptr → Option OrderNode} {p : Option Ptr}
    {as items : List Ptr} (h : OrderQueue.Chain nodes p as items) :
    as.length = items.length := by
  induction h with
  | nil => rfl
  | cons _ _ ih => simp [ih]

theorem OrderQueue.Chain.congr {nodes nodes1 : Ptr → Option OrderNode} {p : Option Ptr}
    {as items : List Ptr} (h : OrderQueue.Chain nodes p as items)
    (hsame : ∀ a ∈ as, nodes1 a = nodes a) : OrderQueue.Chain nodes1 p as items := by
  induction h with
  | nil => exact OrderQueue.Chain.nil
  | cons ha _ ih =>
    refine OrderQueue.Chain.cons ?_ (ih fun a h => hsame a (List.mem_cons_of_mem _ h))
    rw [hsame _ (List.mem_cons_self _ _)]; exact ha

theorem OrderQueue.Chain.walk_eq {nodes : Ptr → Option OrderNode} {p : Option Ptr}
    {as items : List Ptr} (h : OrderQueue.Chain nodes p as items) :
    ∀ fuel, as.length ≤ fuel → OrderQueue.walk nodes fuel p = items := by
  induction h with
  | nil => intro fuel _; cases fuel <;> rfl
  | cons ha _ ih =>
    intro fuel hf
    cases fuel with
    | zero => simp at hf
    | succ fuel =>
      simp only [OrderQueue.walk, ha]
      rw [ih fuel (by simpa using hf)]

theorem OrderQueue.Chain.snoc {nodes : Ptr → Option OrderNode} {p : Option Ptr}
    {as items : List Ptr} (h : OrderQueue.Chain nodes p as items) (new it r : Ptr)
    (rearNode : OrderNode) (hnodup : as.Nodup) (hnew : new ∉ as)
    (hlast : as.getLast? = some r) (hr : nodes r = some rearNode) :
    OrderQueue.Chain
      (Function.update (Function.update nodes new (some ⟨it, none⟩)) r
        (some { rearNode with next := some new }))
      p (as ++ [new]) (items ++ [it]) := by
  induction h with
  | nil => simp at hlast
  | @cons a it0 nxt as1 items1 ha hrest ih =>
    have hanew : a ≠ new := fun e => hnew (e ▸ List.mem_cons_self _ _)
    cases as1 with
    | nil =>
      obtain ⟨rfl, rfl⟩ := hrest.nil_inv
      have har : a = r := by simpa using hlast
      subst har
      rw [ha] at hr
      cases hr
      refine @OrderQueue.Chain.cons _ a it0 (some new) _ _ (by simp) ?_
      refine @OrderQueue.Chain.cons _ new it none _ _ ?_ OrderQueue.Chain.nil
      rw [Function.update_noteq (Ne.symm hanew), Function.update_same]
    | cons b as2 =>
      have hlast1 : (b :: as2).getLast? = some r := by
        simpa [List.getLast?_cons_cons] using hlast
      have hrmem : r ∈ b :: as2 := List.mem_of_getLast?_eq_some hlast1
      have har : a ≠ r := fun e => (List.nodup_cons.mp hnodup).1 (e ▸ hrmem)
      refine @OrderQueue.Chain.cons _ a it0 nxt _ _ ?_
        (ih (List.nodup_cons.mp hnodup).2 (fun h => hnew (List.mem_cons_of_mem _ h)) hlast1)
      rw [Function.update_noteq har, Function.update_noteq hanew]
      exact ha

theorem length_le_of_nodup_of_lt (as : List Ptr) (n : Nat) (hnodup : as.Nodup)
    (hlt : ∀ a ∈ as, a < n) : as.length ≤ n := by
  have h1 : as.toFinset ⊆ Finset.range n := fun a ha =>
    Finset.mem_range.mpr (hlt a (List.mem_toFinset.mp ha))
  have h2 := Finset.card_le_card h1
  rwa [List.toFinset_card_of_nodup hnodup, Finset.card_range] at h2

theorem OrderQueue.Holds.pending_eq {q : OrderQueue} {items : List Ptr}
    (h : q.Holds items) : q.pending = items := by
  obtain ⟨as, hchain, hnodup, hlt, _⟩ := h
  exact hchain.walk_eq _ (length_le_of_nodup_of_lt as _ hnodup hlt)

theorem OrderQueue.Chain.displayLoop_eq {nodes : Ptr → Option OrderNode} {p : Option Ptr}
    {as items : List Ptr} (h : OrderQueue.Chain nodes p as items) (live : Ptr → Bool) :
    ∀ fuel, as.length ≤ fuel →
      OrderQueue.displayLoop nodes live fuel p =
        if items.all live then some items else none := by
  induction h with
  | nil => intro fuel _; cases fuel <;> rfl
  | @cons a it nxt as1 items1 ha _ ih =>
    intro fuel hf
    cases fuel with
    | zero => simp at hf
    | succ fuel =>
      simp only [OrderQueue.displayLoop, ha, List.all_cons]
      rw [ih fuel (by simpa using hf)]
      by_cases h1 : live it = true <;> by_cases h2 : items1.all live = true <;>
        simp [h1, h2]

/-- On a well-formed queue `displayOrders` lists the pending orders when a
`FoodItem` lives at every one of them, and is undefined otherwise. -/
theorem OrderQueue.Holds.displayOrders_eq {q : OrderQueue} {items : List Ptr}
    (h : q.Holds items) (live : Ptr → Bool) :
    q.displayOrders live = if items.all live then some items else none := by
  obtain ⟨as, hchain, hnodup, hlt, _⟩ := h
  exact hchain.displayLoop_eq live _ (length_le_of_nodup_of_lt as _ hnodup hlt)

theorem OrderQueue.holds_init : OrderQueue.init.Holds [] :=
  ⟨[], OrderQueue.Chain.nil, List.nodup_nil, by simp, rfl⟩

theorem OrderQueue.Holds.addOrder {q : OrderQueue} {items : List Ptr} (h : q.Holds items)
    (live : Ptr → Bool) (it : Ptr) (hl : live it = true) :
    ∃ q1, q.addOrder live (some it) = some (q1, Status.success) ∧
      q1.Holds (items ++ [it]) := by
  obtain ⟨as, hchain, hnodup, hlt, hrear⟩ := h
  have hnew : q.allocated ∉ as := fun hm => Nat.lt_irrefl _ (hlt _ hm)
  have hlt1 : ∀ a ∈ as ++ [q.allocated], a < q.allocated + 1 := by
    intro a ha
    rcases List.mem_append.mp ha with ha | ha
    · exact Nat.lt_succ_of_lt (hlt a ha)
    · rw [List.mem_singleton.mp ha]; exact Nat.lt_succ_self _
  have hnodup1 : (as ++ [q.allocated]).Nodup := by
    rw [List.nodup_append]
    refine ⟨hnodup, List.nodup_singleton _, ?_⟩
    intro a ha hb
    simp at hb
    exact hnew (hb ▸ ha)
  cases as with
  | nil =>
    obtain ⟨hfront, rfl⟩ := hchain.nil_inv
    have hrear0 : q.rear = none := by simpa using hrear
    refine ⟨_, by simp only [OrderQueue.addOrder, hrear0, hl]; rfl, ?_⟩
    refine ⟨[q.allocated], ?_, hnodup1, hlt1, rfl⟩
    exact @OrderQueue.Chain.cons _ q.allocated it none _ _ (by simp) OrderQueue.Chain.nil
  | cons a as1 =>
    obtain ⟨r, hr⟩ : ∃ r, (a :: as1).getLast? = some r :=
      ⟨(a :: as1).getLast (by simp), List.getLast?_eq_getLast _ _⟩
    have hrear1 : q.rear = some r := by rw [hrear, hr]
    have hrmem : r ∈ a :: as1 := List.mem_of_getLast?_eq_some hr
    have hrne : r ≠ q.allocated := fun e => hnew (e ▸ hrmem)
    obtain ⟨rearNode, hnode⟩ := hchain.live hrmem
    refine ⟨_, by
      simp only [OrderQueue.addOrder, hrear1, Function.update_noteq hrne, hnode, hl]; rfl, ?_⟩
    refine ⟨(a :: as1) ++ [q.allocated], ?_, hnodup1, hlt1, ?_⟩
    · exact hchain.snoc q.allocated it r rearNode hnodup hnew hr hnode
    · exact (List.getLast?_concat _).symm

/-- `addOrder` of a pointer at which no `FoodItem` lives is undefined. -/
theorem OrderQueue.addOrder_released (q : OrderQueue) (live : Ptr → Bool) (it : Ptr)
    (hl : live it = false) : q.addOrder live (some it) = none := by
  simp only [OrderQueue.addOrder, hl]
  split
  · rfl
  · split <;> rfl

theorem OrderQueue.Holds.dispatchOrder_nil {q : OrderQueue} (h : q.Holds [])
    (live : Ptr → Bool) : q.dispatchOrder live = some (q, none) := by
  obtain ⟨as, hchain, -, -, -⟩ := h
  generalize hf : q.front = p at hchain
  cases hchain
  simp only [OrderQueue.dispatchOrder, hf]

theorem OrderQueue.Holds.dispatchOrder_cons {q : OrderQueue} {it : Ptr} {items : List Ptr}
    (h : q.Holds (it :: items)) (live : Ptr → Bool) (hl : live it = true) :
    ∃ q1, q.dispatchOrder live = some (q1, some it) ∧ q1.Holds items := by
  obtain ⟨as, hchain, hnodup, hlt, hrear⟩ := h
  generalize hf : q.front = p at hchain
  cases hchain with
  | @cons a _ nxt as1 _ ha hrest =>
    refine ⟨_, by simp only [OrderQueue.dispatchOrder, hf, ha, hl]; rfl, ?_⟩
    have hnot : a ∉ as1 := (List.nodup_cons.mp hnodup).1
    refine ⟨as1, ?_, (List.nodup_cons.mp hnodup).2,
      fun b hb => hlt b (List.mem_cons_of_mem _ hb), ?_⟩
    · refine hrest.congr fun b hb => ?_
      exact Function.update_noteq (fun e : b = a => hnot (e ▸ hb)) _ _
    · cases as1 with
      | nil =>
        obtain ⟨rfl, -⟩ := hrest.nil_inv
        simp
      | cons b as2 =>
        cases hrest
        simp [hrear, List.getLast?_cons_cons]

/-- `dispatchOrder` is undefined when no `FoodItem` lives at the item of the
oldest pending order. -/
theorem OrderQueue.Holds.dispatchOrder_released {q : OrderQueue} {it : Ptr}
    {items : List Ptr} (h : q.Holds (it :: items)) (live : Ptr → Bool)
    (hl : live it = false) : q.dispatchOrder live = none := by
  obtain ⟨as, hchain, -, -, -⟩ := h
  generalize hf : q.front = p at hchain
  cases hchain with
  | @cons a _ nxt as1 _ ha hrest =>
    simp only [OrderQueue.dispatchOrder, hf, ha, hl]
    rfl

theorem OrderQueue.Holds.empty {q : OrderQueue} (h : q.Holds []) :
    q.front = none ∧ q.rear = none := by
  obtain ⟨as, hchain, -, -, hrear⟩ := h
  generalize hf : q.front = p at hchain
  cases hchain
  exact ⟨rfl, hrear⟩

theorem OrderQueue.Holds.addOrders {items : List Ptr} (live : Ptr → Bool) :
    ∀ (refs : List Ptr) (q : OrderQueue), (∀ r ∈ refs, live r = true) → q.Holds items →
      ∃ q1, q.addOrders live (refs.map some) = some q1 ∧ q1.Holds (items ++ refs) := by
  intro refs
  induction refs generalizing items with
  | nil => intro q _ h; exact ⟨q, rfl, by simpa using h⟩
  | cons r refs ih =>
    intro q hl h
    obtain ⟨q1, e1, h1⟩ := h.addOrder live r (hl r (List.mem_cons_self _ _))
    obtain ⟨q2, e2, h2⟩ := ih q1 (fun x hx => hl x (List.mem_cons_of_mem _ hx)) h1
    refine ⟨q2, ?_, by simpa using h2⟩
    simp only [List.map_cons, OrderQueue.addOrders, e1, e2]

theorem OrderQueue.Holds.dispatchOrders (live : Ptr → Bool) :
    ∀ (items rest : List Ptr) (q : OrderQueue), (∀ r ∈ items, live r = true) →
      q.Holds (items ++ rest) →
      ∃ q1, q.dispatchOrders live items.length = some (q1, items.map some) ∧
        q1.Holds rest := by
  intro items
  induction items with
  | nil => intro rest q _ h; exact ⟨q, rfl, h⟩
  | cons it items ih =>
    intro rest q hl h
    obtain ⟨q1, e1, h1⟩ :=
      OrderQueue.Holds.dispatchOrder_cons h live (hl it (List.mem_cons_self _ _))
    obtain ⟨q2, e2, h2⟩ := ih rest q1 (fun x hx => hl x (List.mem_cons_of_mem _ hx)) h1
    refine ⟨q2, ?_, h2⟩
    simp only [List.length_cons, OrderQueue.dispatchOrders, e1, e2, List.map_cons]

theorem OrderQueue.Reachable.holds {q : OrderQueue} (h : q.Reachable) :
    ∃ items, q.Holds items := by
  induction h with
  | init => exact ⟨[], OrderQueue.holds_init⟩
  | @addOrder q q1 live item st _ e ih =>
    obtain ⟨items, hq⟩ := ih
    cases item with
    | none =>
      simp only [OrderQueue.addOrder, Option.some.injEq, Prod.mk.injEq] at e
      exact ⟨items, e.1 ▸ hq⟩
    | some it =>
      cases hl : live it with
      | false =>
        rw [OrderQueue.addOrder_released q live it hl] at e
        cases e
      | true =>
        obtain ⟨q2, e2, h2⟩ := hq.addOrder live it hl
        rw [e2] at e
        simp only [Option.some.injEq, Prod.mk.injEq] at e
        exact ⟨_, e.1 ▸ h2⟩
  | @dispatchOrder q q1 live r _ e ih =>
    obtain ⟨items, hq⟩ := ih
    cases items with
    | nil =>
      rw [hq.dispatchOrder_nil live] at e
      simp only [Option.some.injEq, Prod.mk.injEq] at e
      exact ⟨[], e.1 ▸ hq⟩
    | cons it items =>
      cases hl : live it with
      | false =>
        rw [hq.dispatchOrder_released live hl] at e
        cases e
      | true =>
        obtain ⟨q2, e2, h2⟩ := hq.dispatchOrder_cons live hl
        rw [e2] at e
        simp only [Option.some.injEq, Prod.mk.injEq] at e
        exact ⟨items, e.1 ▸ h2⟩

/-! ## The order queue: claims -/

/-- The FIFO law of the queue while the queued objects live. `live` is the set
of the addresses at which a `FoodItem` lives during the calls. Pointers
`r1 .. rn` to live objects, added in that order to an empty queue (the new
queue, or one that the operations have emptied), are removed by `n` calls of
`dispatchOrder` in the order `r1 .. rn`, and the queue is empty afterwards.
In every queue that the operations produce the pending orders form a list:
`addOrder` of a pointer to a live object appends to its end, and
`dispatchOrder` removes and returns its first element when that is a pointer
to a live object or the list is empty. `addOrder` of a pointer to a released
object, and `dispatchOrder` when the first pending order points to a released
object, are undefined. -/
theorem orderQueue_fifo_live (live : Ptr → Bool) :
    (∀ q : OrderQueue, q.Reachable → q.pending = [] → ∀ refs : List Ptr,
      (∀ r ∈ refs, live r = true) → ∃ q1 q2,
        q.addOrders live (refs.map some) = some q1 ∧
        q1.pending = refs ∧
        q1.displayOrders live = some refs ∧
        q1.dispatchOrders live refs.length = some (q2, refs.map some) ∧
        q2.front = none ∧ q2.rear = none ∧ q2.pending = []) ∧
    (∀ q : OrderQueue, q.Reachable →
      (∀ it : Ptr, live it = true →
        ∃ q1, q.addOrder live (some it) = some (q1, Status.success) ∧
          q1.pending = q.pending ++ [it]) ∧
      (∀ it : Ptr, live it = false → q.addOrder live (some it) = none) ∧
      ((∀ it : Ptr, q.pending.head? = some it → live it = true) →
        ∃ q1, q.dispatchOrder live = some (q1, q.pending.head?) ∧
          q1.pending = q.pending.tail) ∧
      (∀ it : Ptr, q.pending.head? = some it → live it = false →
        q.dispatchOrder live = none)) := by
  refine ⟨?_, ?_⟩
  · intro q hq hempty refs hl
    obtain ⟨items, h0⟩ := hq.holds
    rw [h0.pending_eq] at hempty
    subst hempty
    obtain ⟨q1, e, h⟩ := OrderQueue.Holds.addOrders live refs q hl h0
    simp only [List.nil_append] at h
    obtain ⟨q2, e2, h2⟩ := OrderQueue.Holds.dispatchOrders live refs [] q1 hl (by simpa using h)
    refine ⟨q1, q2, e, h.pending_eq, ?_, e2, h2.empty.1, h2.empty.2, h2.pending_eq⟩
    rw [h.displayOrders_eq live, if_pos (List.all_eq_true.mpr hl)]
  · intro q hq
    obtain ⟨items, h⟩ := hq.holds
    rw [h.pending_eq]
    refine ⟨?_, fun it hl => OrderQueue.addOrder_released q live it hl, ?_, ?_⟩
    · intro it hl
      obtain ⟨q1, e1, h1⟩ := h.addOrder live it hl
      exact ⟨q1, e1, h1.pending_eq⟩
    · intro hl
      cases items with
      | nil => exact ⟨q, h.dispatchOrder_nil live, h.pending_eq⟩
      | cons it items =>
        obtain ⟨q1, e1, h1⟩ := h.dispatchOrder_cons live (hl it rfl)
        exact ⟨q1, e1, h1.pending_eq⟩
    · intro it hhead hl
      cases items with
      | nil => simp at hhead
      | cons it0 items =>
        simp only [List.head?_cons, Option.some.injEq] at hhead
        subst hhead
        exact h.dispatchOrder_released live hl

/-! ## Search by name -/

theorem stringFind_isSome_iff (key : List Char) :
    ∀ s : List Char, (stringFind key s).isSome = true ↔ key <:+: s
  | [] => by
    cases key with
    | nil => simp [stringFind]
    | cons c key => simp [stringFind]
  | c :: rest => by
    rw [List.infix_cons_iff, ← stringFind_isSome_iff key rest, stringFind]
    by_cases hp : key.isPrefixOf (c :: rest) = true
    · simp [hp, List.isPrefixOf_iff_prefix.mp hp]
    · have hnp : ¬ key <+: c :: rest := fun h => hp (List.isPrefixOf_iff_prefix.mpr h)
      simp only [hp, hnp, false_or, Bool.false_eq_true, if_false]
      cases stringFind key rest <;> simp

theorem searchLoop_eq (key : String) :
    ∀ (l printed : List FoodItem) (found : Bool),
      FoodDeliverySystem.searchLoop key l printed found =
        (printed ++ l.filter (fun f => decide (key.data <:+: f.name.data)),
         found || l.any (fun f => decide (key.data <:+: f.name.data)))
  | [], printed, found => by simp [FoodDeliverySystem.searchLoop]
  | temp :: rest, printed, found => by
    rw [FoodDeliverySystem.searchLoop]
    by_cases h : key.data <:+: temp.name.data
    · simp [(stringFind_isSome_iff _ _).mpr h, searchLoop_eq key rest, h]
    · have h1 : (stringFind key.data temp.name.data).isSome = false := by
        rw [Bool.eq_false_iff]; exact fun e => h ((stringFind_isSome_iff _ _).mp e)
      simp [h1, searchLoop_eq key rest, h]

/-- C8. `searchFoodByName` reports exactly the catalog entries whose name
contains the search string as a contiguous, case-sensitive run of characters,
in catalog order: its result is the catalog list filtered by that predicate.
It always returns; when no entry matches, the result is empty and the flag
`found` is `false`. -/
theorem searchFoodByName_eq_filter (s : FoodDeliverySystem) (key : String) :
    (s.searchFoodByName key).1 =
      s.head.filter (fun f => decide (key.data <:+: f.name.data)) ∧
    ((s.searchFoodByName key).2 = false ↔
      ∀ f ∈ s.head, ¬ key.data <:+: f.name.data) ∧
    ((∀ f ∈ s.head, ¬ key.data <:+: f.name.data) →
      s.searchFoodByName key = ([], false)) := by
  simp only [FoodDeliverySystem.searchFoodByName, searchLoop_eq, List.nil_append,
    Bool.false_or]
  refine ⟨trivial, ?_, ?_⟩
  · simp
  · intro h
    have h1 : s.head.filter (fun f => decide (key.data <:+: f.name.data)) = [] := by
      simpa [List.filter_eq_nil_iff] using h
    have h2 : s.head.any (fun f => decide (key.data <:+: f.name.data)) = false := by
      simpa using h
    rw [h1, h2]

/-! ## Catalog and hash table: chains -/

theorem hashFunction_nonneg {key : Int} (h : 0 ≤ key) :
    0 ≤ HashTable.hashFunction key ∧ (HashTable.hashFunction key).toNat < HASH_TABLE_SIZE := by
  have h1 : 0 ≤ HashTable.hashFunction key := Int.tmod_nonneg _ h
  have h2 : HashTable.hashFunction key < 47 := Int.tmod_lt_of_pos _ (by decide)
  refine ⟨h1, ?_⟩
  simp only [HASH_TABLE_SIZE]
  omega

theorem bucket_of_nonneg (t : HashTable) (hsize : t.table.length = HASH_TABLE_SIZE)
    {key : Int} (h : 0 ≤ key) :
    ∃ chain, t.bucket (HashTable.hashFunction key) = some chain ∧
      t.table[(HashTable.hashFunction key).toNat]? = some chain := by
  obtain ⟨h1, h2⟩ := hashFunction_nonneg h
  have h3 : (HashTable.hashFunction key).toNat < t.table.length := hsize ▸ h2
  exact ⟨t.table[(HashTable.hashFunction key).toNat], by
    simp [HashTable.bucket, h1, List.getElem?_eq_getElem h3], List.getElem?_eq_getElem h3⟩

theorem hashFunction_toNat {key : Int} (h : 0 ≤ key) (i : Nat) :
    (HashTable.hashFunction key).toNat = i ↔ HashTable.hashFunction key = (i : Int) := by
  have h1 := (hashFunction_nonneg h).1
  omega

theorem searchChain_of_mem (key : Int) (v : Ptr) :
    ∀ chain : List HashNode, (chain.map HashNode.key).Nodup → (⟨key, v⟩ : HashNode) ∈ chain →
      HashTable.searchChain key chain = some v
  | [], _, h => by simp at h
  | entry :: rest, hnd, h => by
    rw [HashTable.searchChain]
    rw [List.map_cons, List.nodup_cons] at hnd
    rcases List.mem_cons.mp h with e | hm
    · subst e; simp
    · have hne : entry.key ≠ key := fun e =>
        hnd.1 (e ▸ List.mem_map_of_mem HashNode.key hm)
      rw [if_neg hne]
      exact searchChain_of_mem key v rest hnd.2 hm

theorem searchChain_eq_none (key : Int) :
    ∀ chain : List HashNode, (∀ n ∈ chain, n.key ≠ key) →
      HashTable.searchChain key chain = none
  | [], _ => rfl
  | entry :: rest, h => by
    rw [HashTable.searchChain, if_neg (h entry (List.mem_cons_self _ _))]
    exact searchChain_eq_none key rest fun n hn => h n (List.mem_cons_of_mem _ hn)

theorem searchChain_mem (key : Int) (v : Ptr) :
    ∀ chain : List HashNode, HashTable.searchChain key chain = some v →
      (⟨key, v⟩ : HashNode) ∈ chain
  | [], h => by simp [HashTable.searchChain] at h
  | entry :: rest, h => by
    rw [HashTable.searchChain] at h
    by_cases e : entry.key = key
    · rw [if_pos e] at h
      cases entry
      simp only [Option.some.injEq] at h
      simp only at e
      subst e; subst h
      exact List.mem_cons_self _ _
    · rw [if_neg e] at h
      exact List.mem_cons_of_mem _ (searchChain_mem key v rest h)

theorem removeChain_eq_none (key : Int) :
    ∀ chain : List HashNode, (∀ n ∈ chain, n.key ≠ key) →
      HashTable.removeChain key chain = none
  | [], _ => rfl
  | entry :: rest, h => by
    rw [HashTable.removeChain, if_neg (h entry (List.mem_cons_self _ _)),
      removeChain_eq_none key rest fun n hn => h n (List.mem_cons_of_mem _ hn)]

theorem removeChain_eq_some (key : Int) :
    ∀ chain : List HashNode, (chain.map HashNode.key).Nodup → (∃ n ∈ chain, n.key = key) →
      HashTable.removeChain key chain =
        some (chain.filter (fun n => decide (n.key ≠ key)))
  | [], _, h => by simp at h
  | entry :: rest, hnd, h => by
    rw [List.map_cons, List.nodup_cons] at hnd
    rw [HashTable.removeChain]
    by_cases e : entry.key = key
    · rw [if_pos e, List.filter_cons_of_neg (by simpa using e)]
      congr 1
      symm
      rw [List.filter_eq_self]
      intro n hn
      have : n.key ≠ key := fun e1 =>
        hnd.1 (by rw [e, ← e1]; exact List.mem_map_of_mem HashNode.key hn)
      simpa using this
    · obtain ⟨n, hn, hkey⟩ := h
      have hn1 : n ∈ rest := by
        rcases List.mem_cons.mp hn with e1 | hm
        · exact absurd (e1 ▸ hkey) e
        · exact hm
      rw [if_neg e, removeChain_eq_some key rest hnd.2 ⟨n, hn1, hkey⟩,
        List.filter_cons_of_pos (by simpa using e)]

theorem unlink_eq_none (id : Int) :
    ∀ l : List FoodItem, (∀ f ∈ l, f.id ≠ id) → FoodDeliverySystem.unlink id l = none
  | [], _ => rfl
  | f :: rest, h => by
    rw [FoodDeliverySystem.unlink, if_neg (h f (List.mem_cons_self _ _)),
      unlink_eq_none id rest fun g hg => h g (List.mem_cons_of_mem _ hg)]

theorem unlink_eq_some (id : Int) :
    ∀ l : List FoodItem, (l.map FoodItem.id).Nodup → (∃ f ∈ l, f.id = id) →
      FoodDeliverySystem.unlink id l = some (l.filter (fun f => decide (f.id ≠ id)))
  | [], _, h => by simp at h
  | f :: rest, hnd, h => by
    rw [List.map_cons, List.nodup_cons] at hnd
    rw [FoodDeliverySystem.unlink]
    by_cases e : f.id = id
    · rw [if_pos e, List.filter_cons_of_neg (by simpa using e)]
      congr 1
      symm
      rw [List.filter_eq_self]
      intro g hg
      have : g.id ≠ id := fun e1 =>
        hnd.1 (by rw [e, ← e1]; exact List.mem_map_of_mem FoodItem.id hg)
      simpa using this
    · obtain ⟨g, hg, hgid⟩ := h
      have hg1 : g ∈ rest := by
        rcases List.mem_cons.mp hg with e1 | hm
        · exact absurd (e1 ▸ hgid) e
        · exact hm
      rw [if_neg e, unlink_eq_some id rest hnd.2 ⟨g, hg1, hgid⟩,
        List.filter_cons_of_pos (by simpa using e)]

theorem insert_of_nonneg (t : HashTable) (hsize : t.table.length = HASH_TABLE_SIZE)
    {key : Int} (h : 0 ≤ key) (food : Ptr) :
    ∃ chain, t.table[(HashTable.hashFunction key).toNat]? = some chain ∧
      t.insert key food =
        some ⟨t.table.set (HashTable.hashFunction key).toNat (⟨key, food⟩ :: chain)⟩ := by
  obtain ⟨chain, hb, hc⟩ := bucket_of_nonneg t hsize h
  refine ⟨chain, hc, ?_⟩
  simp only [HashTable.insert, hb]
  cases chain <;> simp

theorem assign_eq_some {p : Ptr} {name : String} {price : ℚ} {l l1 : List FoodItem}
    (h : FoodDeliverySystem.assign p name price l = some l1) :
    l1 = l.map (fun f => if f.addr = p then { f with name := name, price := price } else f) := by
  simp only [FoodDeliverySystem.assign] at h
  split at h
  · simpa using h.symm
  · cases h

theorem map_id_assign (p : Ptr) (name : String) (price : ℚ) (l : List FoodItem) :
    (l.map (fun f => if f.addr = p then { f with name := name, price := price } else f)).map
      FoodItem.id = l.map FoodItem.id := by
  rw [List.map_map]
  refine List.map_congr_left fun f _ => ?_
  simp only [Function.comp]
  split <;> rfl

theorem map_addr_assign (p : Ptr) (name : String) (price : ℚ) (l : List FoodItem) :
    (l.map (fun f => if f.addr = p then { f with name := name, price := price } else f)).map
      FoodItem.addr = l.map FoodItem.addr := by
  rw [List.map_map]
  refine List.map_congr_left fun f _ => ?_
  simp only [Function.comp]
  split <;> rfl

theorem filter_node_assign (p : Ptr) (name : String) (price : ℚ) (i : Nat)
    (l : List FoodItem) :
    ((l.map (fun f => if f.addr = p then { f with name := name, price := price }
        else f)).filter
      (fun f => decide (HashTable.hashFunction f.id = (i : Int)))).map FoodItem.node =
    (l.filter (fun f => decide (HashTable.hashFunction f.id = (i : Int)))).map
      FoodItem.node := by
  induction l with
  | nil => rfl
  | cons f rest ih =>
    simp only [List.map_cons, List.filter_cons]
    by_cases hp : f.addr = p <;> by_cases hh : HashTable.hashFunction f.id = (i : Int) <;>
      simp [hp, hh, ih, FoodItem.node]

/-! ## Catalog and hash table: the invariant is kept -/

theorem FoodDeliverySystem.inv_init : FoodDeliverySystem.init.Inv where
  size := by simp [FoodDeliverySystem.init, HashTable.init]
  nextId_pos := by simp [FoodDeliverySystem.init]
  nextId_le := by simp [FoodDeliverySystem.init, INT_MAX]
  id_lt := by simp [FoodDeliverySystem.init]
  addr_lt := by simp [FoodDeliverySystem.init]
  id_nodup := by simp [FoodDeliverySystem.init]
  addr_nodup := by simp [FoodDeliverySystem.init]
  index := by
    intro i chain h
    simp only [FoodDeliverySystem.init, HashTable.init, List.getElem?_replicate] at h
    split at h
    · cases h; simp [FoodDeliverySystem.init]
    · cases h

theorem FoodDeliverySystem.Inv.addFood {s : FoodDeliverySystem} (hs : s.Inv)
    (hlt : s.nextId < INT_MAX) (name : String) (price : ℚ) :
    ∃ s1, s.addFood name price = some (s1, s.nextId) ∧ s1.Inv ∧
      s1.nextId = s.nextId + 1 ∧ s1.head = ⟨s.allocated, s.nextId, name, price⟩ :: s.head := by
  have hpos : 0 ≤ s.nextId := le_trans (by decide) hs.nextId_pos
  obtain ⟨chain, hc, hins⟩ := insert_of_nonneg s.itemHashTable hs.size hpos s.allocated
  have e : s.addFood name price = some
      ({ head := ⟨s.allocated, s.nextId, name, price⟩ :: s.head,
         itemHashTable := ⟨s.itemHashTable.table.set (HashTable.hashFunction s.nextId).toNat
           (⟨s.nextId, s.allocated⟩ :: chain)⟩,
         nextId := s.nextId + 1, allocated := s.allocated + 1 }, s.nextId) := by
    simp only [FoodDeliverySystem.addFood, if_pos hlt, hins]
  refine ⟨_, e, ?_, rfl, rfl⟩
  have hidx := (hashFunction_nonneg hpos).2
  refine ⟨by simp [hs.size], by simp only; linarith [hs.nextId_pos], by simp only; omega,
    ?_, ?_, ?_, ?_, ?_⟩
  · intro f hf
    simp only at hf ⊢
    rcases List.mem_cons.mp hf with e | hm
    · subst e; exact ⟨hs.nextId_pos, by simp⟩
    · exact ⟨(hs.id_lt f hm).1, by linarith [(hs.id_lt f hm).2]⟩
  · intro f hf
    simp only at hf ⊢
    rcases List.mem_cons.mp hf with e | hm
    · subst e; simp
    · exact Nat.lt_succ_of_lt (hs.addr_lt f hm)
  · simp only [List.map_cons, List.nodup_cons]
    refine ⟨fun hm => ?_, hs.id_nodup⟩
    obtain ⟨f, hf, e⟩ := List.mem_map.mp hm
    have e1 : f.id = s.nextId := e
    have := (hs.id_lt f hf).2
    omega
  · simp only [List.map_cons, List.nodup_cons]
    refine ⟨fun hm => ?_, hs.addr_nodup⟩
    obtain ⟨f, hf, e⟩ := List.mem_map.mp hm
    have e1 : f.addr = s.allocated := e
    have := hs.addr_lt f hf
    rw [e1] at this
    exact Nat.lt_irrefl _ this
  · intro i chain1 h1
    simp only [List.getElem?_set] at h1
    by_cases hi : (HashTable.hashFunction s.nextId).toNat = i
    · rw [if_pos hi, if_pos (hs.size ▸ hidx)] at h1
      cases h1
      have hh : HashTable.hashFunction s.nextId = (i : Int) :=
        (hashFunction_toNat hpos i).mp hi
      rw [List.filter_cons_of_pos (by simpa using hh), List.map_cons]
      exact List.Perm.cons _ (hs.index i chain (hi ▸ hc))
    · rw [if_neg hi] at h1
      have hh : ¬ HashTable.hashFunction s.nextId = (i : Int) :=
        fun e => hi ((hashFunction_toNat hpos i).mpr e)
      rw [List.filter_cons_of_neg (by simpa using hh)]
      exact hs.index i chain1 h1

theorem FoodDeliverySystem.Inv.chain_nodup {s : FoodDeliverySystem} (hs : s.Inv) {i : Nat}
    {chain : List HashNode} (h : s.itemHashTable.table[i]? = some chain) :
    (chain.map HashNode.key).Nodup := by
  have hp := (hs.index i chain h).map HashNode.key
  rw [hp.nodup_iff, List.map_map]
  have e : HashNode.key ∘ FoodItem.node = FoodItem.id := rfl
  rw [e]
  exact hs.id_nodup.sublist ((List.filter_sublist _).map _)

theorem FoodDeliverySystem.Inv.findFoodById_mem {s : FoodDeliverySystem} (hs : s.Inv)
    {f : FoodItem} (hf : f ∈ s.head) : s.findFoodById f.id = some (some f.addr) := by
  have hpos : 0 ≤ f.id := le_trans (by decide) (hs.id_lt f hf).1
  obtain ⟨chain, hb, hc⟩ := bucket_of_nonneg s.itemHashTable hs.size hpos
  simp only [FoodDeliverySystem.findFoodById, HashTable.search, hb]
  have hmem : f.node ∈ chain := by
    rw [(hs.index _ chain hc).mem_iff]
    refine List.mem_map_of_mem _ (List.mem_filter.mpr ⟨hf, ?_⟩)
    simpa using ((hashFunction_toNat hpos _).mp rfl).symm
  rw [searchChain_of_mem f.id f.addr chain (hs.chain_nodup hc) hmem]

theorem FoodDeliverySystem.Inv.findFoodById_some {s : FoodDeliverySystem} (hs : s.Inv)
    {id : Int} {p : Ptr} (h : s.findFoodById id = some (some p)) :
    ∃ f ∈ s.head, f.id = id ∧ f.addr = p := by
  simp only [FoodDeliverySystem.findFoodById, HashTable.search, HashTable.bucket] at h
  split at h
  · cases h
  · rename_i chain hb
    split at hb
    · simp only [Option.some.injEq] at h
      have hmem := searchChain_mem id p chain h
      rw [(hs.index _ chain hb).mem_iff] at hmem
      obtain ⟨f, hf, e⟩ := List.mem_map.mp hmem
      simp only [FoodItem.node, HashNode.mk.injEq] at e
      exact ⟨f, (List.mem_filter.mp hf).1, e.1, e.2⟩
    · cases hb

theorem FoodDeliverySystem.Inv.findFoodById_not_mem {s : FoodDeliverySystem} (hs : s.Inv)
    {id : Int} (hpos : 0 ≤ id) (hno : ∀ f ∈ s.head, f.id ≠ id) :
    s.findFoodById id = some none := by
  obtain ⟨chain, hb, hc⟩ := bucket_of_nonneg s.itemHashTable hs.size hpos
  simp only [FoodDeliverySystem.findFoodById, HashTable.search, hb]
  rw [searchChain_eq_none]
  intro n hn
  rw [(hs.index _ chain hc).mem_iff] at hn
  obtain ⟨f, hf, e⟩ := List.mem_map.mp hn
  subst e
  exact hno f (List.mem_filter.mp hf).1

theorem FoodDeliverySystem.Inv.editFood {s : FoodDeliverySystem} (hs : s.Inv) {id : Int}
    {name : String} {price : ℚ} {s1 : FoodDeliverySystem} {st : Status}
    (h : s.editFood id name price = some (s1, st)) :
    s1.Inv ∧ s1.nextId = s.nextId ∧ s1.itemHashTable = s.itemHashTable ∧
      s1.allocated = s.allocated := by
  simp only [FoodDeliverySystem.editFood] at h
  split at h
  · cases h
  · simp only [Option.some.injEq, Prod.mk.injEq] at h
    rw [← h.1]; exact ⟨hs, rfl, rfl, rfl⟩
  · split at h
    · cases h
    · rename_i p _ _ l hl
      simp only [Option.some.injEq, Prod.mk.injEq] at h
      rw [← h.1]
      have e := assign_eq_some hl
      refine ⟨⟨hs.size, hs.nextId_pos, hs.nextId_le, ?_, ?_, ?_, ?_, ?_⟩, rfl, rfl, rfl⟩
      · intro f hf
        have h1 : f.id ∈ s.head.map FoodItem.id := by
          rw [← map_id_assign p name price, ← e]; exact List.mem_map_of_mem _ hf
        obtain ⟨g, hg, eg⟩ := List.mem_map.mp h1
        rw [← eg]; exact hs.id_lt g hg
      · intro f hf
        have h1 : f.addr ∈ s.head.map FoodItem.addr := by
          rw [← map_addr_assign p name price, ← e]; exact List.mem_map_of_mem _ hf
        obtain ⟨g, hg, eg⟩ := List.mem_map.mp h1
        rw [← eg]; exact hs.addr_lt g hg
      · show (l.map FoodItem.id).Nodup
        rw [e, map_id_assign]; exact hs.id_nodup
      · show (l.map FoodItem.addr).Nodup
        rw [e, map_addr_assign]; exact hs.addr_nodup
      · intro i chain hc
        show chain.Perm ((l.filter _).map FoodItem.node)
        rw [e, filter_node_assign]
        exact hs.index i chain hc

theorem FoodDeliverySystem.Inv.editFood_defined {s : FoodDeliverySystem} (hs : s.Inv)
    {id : Int} (hpos : 0 ≤ id) (name : String) (price : ℚ) :
    ∃ s1 st, s.editFood id name price = some (s1, st) := by
  by_cases hmem : ∃ f ∈ s.head, f.id = id
  · obtain ⟨f, hf, rfl⟩ := hmem
    have h1 : s.itemHashTable.search f.id = some (some f.addr) := hs.findFoodById_mem hf
    have h2 : (s.head.any fun g => decide (g.addr = f.addr)) = true :=
      List.any_eq_true.mpr ⟨f, hf, by simp⟩
    simp only [FoodDeliverySystem.editFood, h1, FoodDeliverySystem.assign, h2, if_true]
    exact ⟨_, _, rfl⟩
  · have h1 : s.itemHashTable.search id = some none :=
      hs.findFoodById_not_mem hpos fun f hf e => hmem ⟨f, hf, e⟩
    simp only [FoodDeliverySystem.editFood, h1]
    exact ⟨_, _, rfl⟩

theorem deleteFood_of_not_mem (s : FoodDeliverySystem) (id : Int)
    (hno : ∀ f ∈ s.head, f.id ≠ id) :
    s.deleteFood id =
      some (s, if s.head.isEmpty then Status.emptyMenu else Status.notFound) := by
  simp only [FoodDeliverySystem.deleteFood, unlink_eq_none id s.head hno]
  split <;> rfl

theorem FoodDeliverySystem.Inv.deleteFood_mem {s : FoodDeliverySystem} (hs : s.Inv)
    {f : FoodItem} (hf : f ∈ s.head) :
    ∃ s1, s.deleteFood f.id = some (s1, Status.success) ∧ s1.Inv ∧
      s1.head = s.head.filter (fun g => decide (g.id ≠ f.id)) ∧
      s1.nextId = s.nextId ∧ s1.allocated = s.allocated := by
  have hpos : 0 ≤ f.id := le_trans (by decide) (hs.id_lt f hf).1
  obtain ⟨chain, hb, hc⟩ := bucket_of_nonneg s.itemHashTable hs.size hpos
  have hidx := (hashFunction_nonneg hpos).2
  have hne : s.head.isEmpty = false := by
    cases hh : s.head with
    | nil => rw [hh] at hf; cases hf
    | cons _ _ => rfl
  have e : s.deleteFood f.id = some
      ({ s with head := s.head.filter (fun g => decide (g.id ≠ f.id)),
                itemHashTable := ⟨s.itemHashTable.table.set (HashTable.hashFunction f.id).toNat
                  (chain.filter (fun n => decide (n.key ≠ f.id)))⟩ }, Status.success) := by
    have hnode : ∃ n ∈ chain, n.key = f.id := by
      refine ⟨f.node, ?_, rfl⟩
      rw [(hs.index _ chain hc).mem_iff]
      refine List.mem_map_of_mem _ (List.mem_filter.mpr ⟨hf, ?_⟩)
      simpa using ((hashFunction_toNat hpos _).mp rfl).symm
    simp only [FoodDeliverySystem.deleteFood, hne, unlink_eq_some f.id s.head hs.id_nodup
      ⟨f, hf, rfl⟩, HashTable.remove, hb,
      removeChain_eq_some f.id chain (hs.chain_nodup hc) hnode]
    rfl
  refine ⟨_, e, ⟨by simp [hs.size], hs.nextId_pos, hs.nextId_le, ?_, ?_, ?_, ?_, ?_⟩,
    rfl, rfl, rfl⟩
  · intro g hg
    exact hs.id_lt g (List.mem_filter.mp hg).1
  · intro g hg
    exact hs.addr_lt g (List.mem_filter.mp hg).1
  · exact hs.id_nodup.sublist ((List.filter_sublist _).map _)
  · exact hs.addr_nodup.sublist ((List.filter_sublist _).map _)
  · intro i chain1 h1
    simp only [List.getElem?_set] at h1
    by_cases hi : (HashTable.hashFunction f.id).toNat = i
    · rw [if_pos hi, if_pos (hs.size ▸ hidx)] at h1
      cases h1
      have hp := (hs.index i chain (hi ▸ hc)).filter (fun n => decide (n.key ≠ f.id))
      refine hp.trans (List.Perm.of_eq ?_)
      rw [List.filter_map, List.filter_filter, List.filter_filter]
      congr 1
      refine List.filter_congr fun g _ => ?_
      simp only [Function.comp, FoodItem.node]
      exact Bool.and_comm _ _
    · rw [if_neg hi] at h1
      refine (hs.index i chain1 h1).trans (List.Perm.of_eq ?_)
      rw [List.filter_filter]
      congr 1
      refine List.filter_congr fun g _ => ?_
      by_cases hg : HashTable.hashFunction g.id = (i : Int)
      · have : g.id ≠ f.id := fun e1 =>
          hi ((hashFunction_toNat hpos i).mpr (e1 ▸ hg))
        simp [hg, this]
      · simp [hg]

theorem FoodDeliverySystem.Inv.deleteFood {s : FoodDeliverySystem} (hs : s.Inv) (id : Int) :
    ∃ s1 st, s.deleteFood id = some (s1, st) ∧ s1.Inv ∧ s1.nextId = s.nextId := by
  by_cases hmem : ∃ f ∈ s.head, f.id = id
  · obtain ⟨f, hf, rfl⟩ := hmem
    obtain ⟨s1, e, h1, -, h2, -⟩ := hs.deleteFood_mem hf
    exact ⟨s1, _, e, h1, h2⟩
  · exact ⟨s, _, deleteFood_of_not_mem s id fun f hf e => hmem ⟨f, hf, e⟩, hs, rfl⟩

theorem FoodDeliverySystem.Inv.sortMenuByPrice {s : FoodDeliverySystem} (hs : s.Inv) :
    s.sortMenuByPrice.Inv := by
  rw [sortMenuByPrice_eq]
  have hp := mergeSort_perm s.head
  refine ⟨hs.size, hs.nextId_pos, hs.nextId_le, ?_, ?_, ?_, ?_, ?_⟩
  · intro f hf; exact hs.id_lt f (hp.mem_iff.mp hf)
  · intro f hf; exact hs.addr_lt f (hp.mem_iff.mp hf)
  · exact ((hp.map FoodItem.id).nodup_iff).mpr hs.id_nodup
  · exact ((hp.map FoodItem.addr).nodup_iff).mpr hs.addr_nodup
  · intro i chain hc
    exact (hs.index i chain hc).trans (((hp.filter _).map _).symm)

/-! ## Sequences of catalog calls: ids and completion -/

theorem idsFrom_append (m : Nat) :
    ∀ (first : Int) (n : Nat),
      idsFrom first (n + m) = idsFrom first n ++ idsFrom (first + n) m
  | first, 0 => by simp [idsFrom]
  | first, n + 1 => by
    rw [show n + 1 + m = (n + m) + 1 by omega, idsFrom, idsFrom, idsFrom_append m (first + 1) n]
    simp only [List.cons_append, Nat.cast_add, Nat.cast_one]
    rw [show first + 1 + (n : Int) = first + ((n : Int) + 1) by ring]

theorem length_idsFrom : ∀ (first : Int) (n : Nat), (idsFrom first n).length = n
  | _, 0 => rfl
  | first, n + 1 => by rw [idsFrom, List.length_cons, length_idsFrom]

theorem mem_idsFrom : ∀ {first : Int} {n : Nat} {id : Int}, id ∈ idsFrom first n →
    first ≤ id ∧ id < first + n
  | _, 0, _, h => by simp [idsFrom] at h
  | first, n + 1, id, h => by
    rw [idsFrom] at h
    rcases List.mem_cons.mp h with e | hm
    · subst e; push_cast; omega
    · have := mem_idsFrom hm
      push_cast; omega

theorem idsFrom_pairwise : ∀ (first : Int) (n : Nat), (idsFrom first n).Pairwise (· < ·)
  | _, 0 => List.Pairwise.nil
  | first, n + 1 => by
    rw [idsFrom, List.pairwise_cons]
    refine ⟨fun id hm => ?_, idsFrom_pairwise (first + 1) n⟩
    have := (mem_idsFrom hm).1
    omega

theorem getElem_idsFrom : ∀ (first : Int) (n i : Nat) (h : i < (idsFrom first n).length),
    (idsFrom first n)[i] = first + i
  | _, 0, _, h => by simp [idsFrom] at h
  | first, n + 1, 0, _ => by simp [idsFrom]
  | first, n + 1, i + 1, h => by
    simp only [idsFrom, List.getElem_cons_succ]
    rw [getElem_idsFrom (first + 1) n i]
    push_cast; ring

theorem FoodDeliverySystem.Inv.step {s : FoodDeliverySystem} (hs : s.Inv) {op : Op}
    {s1 : FoodDeliverySystem} {ids : List Int} (h : s.step op = some (s1, ids)) :
    s1.Inv ∧ s1.nextId = s.nextId + Op.countAdds [op] ∧
      ids = idsFrom s.nextId (Op.countAdds [op]) := by
  cases op with
  | addFood name price =>
    have hlt : s.nextId < INT_MAX := by
      by_contra hn
      simp [FoodDeliverySystem.step, FoodDeliverySystem.addFood, hn] at h
    obtain ⟨s2, e, h2, hn, -⟩ := hs.addFood hlt name price
    simp only [FoodDeliverySystem.step, e, Option.some.injEq, Prod.mk.injEq] at h
    obtain ⟨rfl, rfl⟩ := h
    exact ⟨h2, by simpa [Op.countAdds] using hn, by simp [Op.countAdds, idsFrom]⟩
  | editFood id name price =>
    simp only [FoodDeliverySystem.step] at h
    split at h
    · cases h
    · rename_i s2 st e
      simp only [Option.some.injEq, Prod.mk.injEq] at h
      obtain ⟨rfl, rfl⟩ := h
      obtain ⟨h2, hn, -, -⟩ := hs.editFood e
      exact ⟨h2, by simpa [Op.countAdds] using hn, by simp [Op.countAdds, idsFrom]⟩
  | deleteFood id =>
    obtain ⟨s2, st, e, h2, hn⟩ := hs.deleteFood id
    simp only [FoodDeliverySystem.step, e, Option.some.injEq, Prod.mk.injEq] at h
    obtain ⟨rfl, rfl⟩ := h
    exact ⟨h2, by simpa [Op.countAdds] using hn, by simp [Op.countAdds, idsFrom]⟩
  | sortMenuByPrice =>
    simp only [FoodDeliverySystem.step, Option.some.injEq, Prod.mk.injEq] at h
    obtain ⟨rfl, rfl⟩ := h
    exact ⟨hs.sortMenuByPrice, by simp [Op.countAdds, sortMenuByPrice_eq],
      by simp [Op.countAdds, idsFrom]⟩

theorem countAdds_cons (op : Op) (ops : List Op) :
    Op.countAdds (op :: ops) = Op.countAdds [op] + Op.countAdds ops := by
  cases op <;> simp only [Op.countAdds] <;> omega

theorem FoodDeliverySystem.Inv.run {s : FoodDeliverySystem} (hs : s.Inv) {ops : List Op}
    {s1 : FoodDeliverySystem} {ids : List Int} (h : s.run ops = some (s1, ids)) :
    s1.Inv ∧ s1.nextId = s.nextId + Op.countAdds ops ∧
      ids = idsFrom s.nextId (Op.countAdds ops) := by
  induction ops generalizing s ids with
  | nil =>
    simp only [FoodDeliverySystem.run, Option.some.injEq, Prod.mk.injEq] at h
    obtain ⟨rfl, rfl⟩ := h
    exact ⟨hs, by simp [Op.countAdds], by simp [Op.countAdds, idsFrom]⟩
  | cons op ops ih =>
    simp only [FoodDeliverySystem.run] at h
    split at h
    · cases h
    · rename_i s2 ids2 e2
      split at h
      · cases h
      · rename_i s3 ids3 e3
        simp only [Option.some.injEq, Prod.mk.injEq] at h
        obtain ⟨rfl, rfl⟩ := h
        obtain ⟨h2, hn2, hi2⟩ := hs.step e2
        obtain ⟨h3, hn3, hi3⟩ := ih h2 e3
        refine ⟨h3, ?_, ?_⟩
        · rw [hn3, hn2, countAdds_cons op ops]; push_cast; ring
        · rw [hi2, hi3, hn2, countAdds_cons op ops, idsFrom_append]

theorem FoodDeliverySystem.Inv.run_defined {s : FoodDeliverySystem} (hs : s.Inv)
    (ops : List Op) (hadds : s.nextId + Op.countAdds ops ≤ INT_MAX)
    (hedit : ∀ id name price, Op.editFood id name price ∈ ops → 0 ≤ id) :
    ∃ r, s.run ops = some r := by
  induction ops generalizing s with
  | nil => exact ⟨_, rfl⟩
  | cons op ops ih =>
    rw [countAdds_cons] at hadds
    have hstep : ∃ s1 ids, s.step op = some (s1, ids) := by
      cases op with
      | addFood name price =>
        have hlt : s.nextId < INT_MAX := by
          simp only [Op.countAdds] at hadds; push_cast at hadds; omega
        obtain ⟨s2, e, -⟩ := hs.addFood hlt name price
        exact ⟨s2, [s.nextId], by simp only [FoodDeliverySystem.step, e]⟩
      | editFood id name price =>
        obtain ⟨s2, st, e⟩ := hs.editFood_defined
          (hedit id name price (List.mem_cons_self _ _)) name price
        exact ⟨s2, [], by simp only [FoodDeliverySystem.step, e]⟩
      | deleteFood id =>
        obtain ⟨s2, st, e, -⟩ := hs.deleteFood id
        exact ⟨s2, [], by simp only [FoodDeliverySystem.step, e]⟩
      | sortMenuByPrice => exact ⟨_, _, rfl⟩
    obtain ⟨s1, ids1, e1⟩ := hstep
    obtain ⟨h1, hn1, -⟩ := hs.step e1
    obtain ⟨⟨s2, ids2⟩, e2⟩ := ih h1 (by rw [hn1]; push_cast at hadds ⊢; omega)
      (fun id name price hm => hedit id name price (List.mem_cons_of_mem _ hm))
    exact ⟨(s2, ids1 ++ ids2), by simp only [FoodDeliverySystem.run, e1, e2]⟩

/-! ## Catalog: claims -/

/-- In every state that calls of `addFood`, `editFood`, `deleteFood` and
`sortMenuByPrice` reach from a new system, `findFoodById` of the id of a
catalog entry returns the address of that entry, and `findFoodById` of a
non-negative id that no entry carries returns `nullptr`. -/
theorem index_consistent (ops : List Op) (s : FoodDeliverySystem) (ids : List Int)
    (h : FoodDeliverySystem.init.run ops = some (s, ids)) :
    (∀ f ∈ s.head, s.findFoodById f.id = some (some f.addr)) ∧
    (∀ id : Int, 0 ≤ id → (∀ f ∈ s.head, f.id ≠ id) → s.findFoodById id = some none) := by
  have hs := (FoodDeliverySystem.inv_init.run h).1
  exact ⟨fun f hf => hs.findFoodById_mem hf, fun id hpos hno => hs.findFoodById_not_mem hpos hno⟩

/-- C1, at the input where the code departs from it. No entry of
`exampleCatalog` carries the id `-1`, and `findFoodById(-1)` does not return
`nullptr`: `hashFunction(-1)` is `-1`, so `search` reads `table[-1]`, outside
the bucket array. -/
theorem findFoodById_negative_id :
    (∀ f ∈ exampleCatalog.head, f.id ≠ -1) ∧
    HashTable.hashFunction (-1) = -1 ∧
    exampleCatalog.findFoodById (-1) = none ∧
    exampleCatalog.findFoodById (-1) ≠ some none := by
  decide

/-- C6. The ids that `addFood` assigns in a sequence of calls on a new system
are `1, 2, 3, ...` in the order of the calls, whatever `editFood`,
`deleteFood` and `sortMenuByPrice` calls lie between them: they are strictly
increasing and pairwise distinct. An id assigned later is greater than every
id assigned before and than the id of every entry that was in the catalog, so
the id of a deleted entry is not assigned again. A sequence runs to its end
when it holds fewer than `INT_MAX` calls of `addFood` and no `editFood` of a
negative id. -/
theorem addFood_ids_increasing :
    (∀ (ops : List Op) (s : FoodDeliverySystem) (ids : List Int),
      FoodDeliverySystem.init.run ops = some (s, ids) →
        ids.length = Op.countAdds ops ∧
        (∀ (i : Nat) (hi : i < ids.length), ids[i] = (i : Int) + 1) ∧
        ids.Pairwise (· < ·) ∧ ids.Nodup) ∧
    (∀ (ops1 ops2 : List Op) (s1 s2 : FoodDeliverySystem) (ids1 ids2 : List Int),
      FoodDeliverySystem.init.run ops1 = some (s1, ids1) →
      s1.run ops2 = some (s2, ids2) →
        ∀ id ∈ ids2, (∀ id1 ∈ ids1, id1 < id) ∧ (∀ f ∈ s1.head, f.id < id)) ∧
    (∀ (ops1 ops2 : List Op) (id : Int) (s1 s2 : FoodDeliverySystem) (ids1 ids2 : List Int),
      FoodDeliverySystem.init.run ops1 = some (s1, ids1) →
      (∃ f ∈ s1.head, f.id = id) →
      s1.run (Op.deleteFood id :: ops2) = some (s2, ids2) → id ∉ ids2) ∧
    (∀ ops : List Op, (Op.countAdds ops : Int) < INT_MAX →
      (∀ id name price, Op.editFood id name price ∈ ops → 0 ≤ id) →
        ∃ r, FoodDeliverySystem.init.run ops = some r) := by
  have later : ∀ (ops1 ops2 : List Op) (s1 s2 : FoodDeliverySystem) (ids1 ids2 : List Int),
      FoodDeliverySystem.init.run ops1 = some (s1, ids1) →
      s1.run ops2 = some (s2, ids2) →
        ∀ id ∈ ids2, (∀ id1 ∈ ids1, id1 < id) ∧ (∀ f ∈ s1.head, f.id < id) := by
    intro ops1 ops2 s1 s2 ids1 ids2 h1 h2 id hid
    obtain ⟨hs1, hn1, hi1⟩ := FoodDeliverySystem.inv_init.run h1
    obtain ⟨-, -, hi2⟩ := hs1.run h2
    rw [hi2] at hid
    have hge := (mem_idsFrom hid).1
    refine ⟨fun id1 hid1 => ?_, fun f hf => lt_of_lt_of_le (hs1.id_lt f hf).2 hge⟩
    rw [hi1] at hid1
    have := (mem_idsFrom hid1).2
    omega
  refine ⟨?_, later, ?_, ?_⟩
  · intro ops s ids h
    obtain ⟨-, -, hi⟩ := FoodDeliverySystem.inv_init.run h
    have h1 : FoodDeliverySystem.init.nextId = 1 := rfl
    rw [h1] at hi
    subst hi
    refine ⟨length_idsFrom _ _, fun i hi => ?_, idsFrom_pairwise _ _, ?_⟩
    · rw [getElem_idsFrom]; ring
    · exact (idsFrom_pairwise _ _).imp (fun hlt => ne_of_lt hlt)
  · intro ops1 ops2 id s1 s2 ids1 ids2 h1 hmem h2 hid
    obtain ⟨f, hf, rfl⟩ := hmem
    exact lt_irrefl _ ((later ops1 _ s1 s2 ids1 ids2 h1 h2 f.id hid).2 f hf)
  · intro ops hadds hedit
    refine FoodDeliverySystem.inv_init.run_defined ops ?_ hedit
    have h1 : FoodDeliverySystem.init.nextId = 1 := rfl
    rw [h1]
    omega

/-- C6 on a concrete sequence: three `addFood` calls with a `deleteFood`, an
`editFood` and a `sortMenuByPrice` between them return the ids 1, 2, 3. -/
theorem addFood_ids_example :
    (FoodDeliverySystem.init.run
      [Op.addFood "a" 1, Op.deleteFood 1, Op.addFood "b" 1, Op.sortMenuByPrice,
       Op.editFood 2 "c" 3, Op.addFood "d" 0]).map Prod.snd = some [1, 2, 3] := by
  decide

/-- C9 as stated fails: `addFood` with the negative price `-5` is not
rejected. The entry with that price is put at the head of the catalog list
and into the hash table. -/
theorem addFood_negative_price :
    (-5 : ℚ) < 0 ∧
    ∃ s, FoodDeliverySystem.init.addFood "Refund" (-5) = some (s, 1) ∧
      s.head = [⟨0, 1, "Refund", -5⟩] ∧ s.findFoodById 1 = some (some 0) :=
  ⟨by decide, _, rfl, rfl, by decide⟩

/-- C9, amended. `addFood` does not test the sign of the price. In every
state that the catalog calls reach from a new system with `nextId` below
`INT_MAX`, `addFood` with any price, negative or not, assigns `nextId`, puts
the entry with that price at the head of the catalog list and makes
`findFoodById` of the new id return it. -/
theorem addFood_any_price (ops : List Op) (s : FoodDeliverySystem) (ids : List Int)
    (h : FoodDeliverySystem.init.run ops = some (s, ids)) (hlt : s.nextId < INT_MAX)
    (name : String) (price : ℚ) :
    ∃ s1, s.addFood name price = some (s1, s.nextId) ∧
      s1.head = ⟨s.allocated, s.nextId, name, price⟩ :: s.head ∧
      s1.findFoodById s.nextId = some (some s.allocated) := by
  have hs := (FoodDeliverySystem.inv_init.run h).1
  obtain ⟨s1, e, h1, -, hhead⟩ := hs.addFood hlt name price
  refine ⟨s1, e, hhead, ?_⟩
  have hmem : (⟨s.allocated, s.nextId, name, price⟩ : FoodItem) ∈ s1.head := by
    rw [hhead]; exact List.mem_cons_self _ _
  exact h1.findFoodById_mem hmem

/-- C9, amended, on `exampleCatalog` and the price `-5`. -/
theorem addFood_any_price_witness :
    FoodDeliverySystem.init.run exampleOps = some (exampleCatalog, [1, 2, 3]) ∧
    exampleCatalog.nextId < INT_MAX ∧
    ∃ s1, exampleCatalog.addFood "Refund" (-5) = some (s1, exampleCatalog.nextId) ∧
      s1.head = ⟨exampleCatalog.allocated, exampleCatalog.nextId, "Refund", -5⟩ ::
        exampleCatalog.head ∧
      s1.findFoodById exampleCatalog.nextId = some (some exampleCatalog.allocated) :=
  ⟨by decide, by decide,
    addFood_any_price exampleOps exampleCatalog [1, 2, 3] (by decide) (by decide) "Refund" (-5)⟩

/-- C10 as stated fails on the empty catalog: `deleteFood` leaves the new
system as it is, and reports `Menu is empty`, not `not found`. -/
theorem deleteFood_empty_menu :
    (∀ f ∈ FoodDeliverySystem.init.head, f.id ≠ 1) ∧
    FoodDeliverySystem.init.deleteFood 1 =
      some (FoodDeliverySystem.init, Status.emptyMenu) ∧
    FoodDeliverySystem.init.deleteFood 1 ≠
      some (FoodDeliverySystem.init, Status.notFound) := by
  decide

/-- C10, amended. `deleteFood` of an id that no catalog entry carries leaves
the system exactly as it was (catalog list, hash table and id counter), and
reports `not found` when the catalog holds an entry, `Menu is empty` when it
holds none. -/
theorem deleteFood_miss (s : FoodDeliverySystem) (id : Int)
    (hno : ∀ f ∈ s.head, f.id ≠ id) :
    s.deleteFood id =
      some (s, if s.head.isEmpty then Status.emptyMenu else Status.notFound) :=
  deleteFood_of_not_mem s id hno

/-- C10, amended, on `exampleCatalog` and the id 7. -/
theorem deleteFood_miss_witness :
    (∀ f ∈ exampleCatalog.head, f.id ≠ 7) ∧
    exampleCatalog.deleteFood 7 = some (exampleCatalog, Status.notFound) :=
  ⟨by decide, (deleteFood_miss exampleCatalog 7 (by decide)).trans (by decide)⟩

/-! ## The order queue: error cases -/

/-- C13. The error cases of the order queue leave it as it is. `addOrder` of
`nullptr` reports the error and returns the queue unchanged; `dispatchOrder`
on a queue whose `front` is `nullptr` reports the empty queue and returns the
queue unchanged. So `front`, `rear` and the nodes stay the same. A queue the
operations produce with no pending order has `front` and `rear` `nullptr`.
Both calls return before they read through any pointer, so this holds
whatever `FoodItem` objects live. -/
theorem orderQueue_error_cases :
    (∀ (q : OrderQueue) (live : Ptr → Bool),
      q.addOrder live none = some (q, Status.invalidItem)) ∧
    (∀ (q : OrderQueue) (live : Ptr → Bool), q.front = none →
      q.dispatchOrder live = some (q, none)) ∧
    (∀ (q : OrderQueue) (live : Ptr → Bool), q.Reachable → q.pending = [] →
      q.front = none ∧ q.rear = none ∧ q.dispatchOrder live = some (q, none)) := by
  refine ⟨fun q live => rfl, fun q live h => ?_, fun q live hq hempty => ?_⟩
  · simp only [OrderQueue.dispatchOrder, h]
  · obtain ⟨items, h⟩ := hq.holds
    rw [h.pending_eq] at hempty
    subst hempty
    exact ⟨h.empty.1, h.empty.2, h.dispatchOrder_nil live⟩

/-! ## Bucket selection -/

/-- For a key that is not negative the bucket index lies in `0 .. 46`, and
`search` on a table of 47 buckets returns a pointer or `nullptr`. -/
theorem hashFunction_range_of_nonneg (key : Int) (h : 0 ≤ key) :
    0 ≤ HashTable.hashFunction key ∧ HashTable.hashFunction key < 47 ∧
    ∀ t : HashTable, t.table.length = HASH_TABLE_SIZE → ∃ r, t.search key = some r := by
  have h1 := hashFunction_nonneg h
  refine ⟨h1.1, Int.tmod_lt_of_pos _ (by decide), fun t ht => ?_⟩
  obtain ⟨chain, hb, -⟩ := bucket_of_nonneg t ht h
  exact ⟨HashTable.searchChain key chain, by simp only [HashTable.search, hb]⟩

/-- C18, at the input where the code departs from it. For the key `-1`
`hashFunction` returns `-1`, not an index of `0 .. 46`, and `search`, `insert`
and `remove` read `table[-1]`, outside the bucket array. -/
theorem hashFunction_negative_key :
    HashTable.hashFunction (-1) = -1 ∧
    ¬ (0 ≤ HashTable.hashFunction (-1)) ∧
    HashTable.init.search (-1) = none ∧
    HashTable.init.insert (-1) 0 = none ∧
    HashTable.init.remove (-1) = none ∧
    exampleCatalog.findFoodById (-1) = none := by
  decide

/-! ## The split step -/

/-- C19. On a list of `n ≥ 2` entries `splitList` returns a front half and a
back half whose concatenation is the list, of `⌈n/2⌉` and `⌊n/2⌋` entries.
Both halves are non-empty and shorter than the list, and `mergeSort` of the
list is the merge of the sorted halves: its recursion is on shorter lists. -/
theorem splitList_halves (l : List FoodItem) (h : 2 ≤ l.length) :
    (splitList l).1 ++ (splitList l).2 = l ∧
    (splitList l).1.length = (l.length + 1) / 2 ∧
    (splitList l).2.length = l.length / 2 ∧
    (splitList l).1 ≠ [] ∧ (splitList l).2 ≠ [] ∧
    (splitList l).1.length < l.length ∧ (splitList l).2.length < l.length ∧
    mergeSort l = mergeSortedLists (mergeSort (splitList l).1) (mergeSort (splitList l).2) := by
  match l, h with
  | x :: y :: rest, _ =>
    have h1 : ((x :: y :: rest).take ((rest.length + 3) / 2)).length = (rest.length + 3) / 2 := by
      rw [List.length_take]; simp only [List.length_cons]; omega
    have h2 : ((x :: y :: rest).drop ((rest.length + 3) / 2)).length = (rest.length + 2) / 2 := by
      rw [List.length_drop]; simp only [List.length_cons]; omega
    have hm : mergeSort (x :: y :: rest) =
        mergeSortedLists (mergeSort (splitList (x :: y :: rest)).1)
          (mergeSort (splitList (x :: y :: rest)).2) := by
      rw [mergeSort]
    rw [splitList_cons_cons] at hm ⊢
    refine ⟨List.take_append_drop _ _, ?_, ?_, ?_, ?_, ?_, ?_, hm⟩
    · show ((x :: y :: rest).take ((rest.length + 3) / 2)).length = _
      rw [h1]; simp only [List.length_cons]
    · show ((x :: y :: rest).drop ((rest.length + 3) / 2)).length = _
      rw [h2]; simp only [List.length_cons]
    · show (x :: y :: rest).take ((rest.length + 3) / 2) ≠ []
      intro e
      rw [e] at h1
      simp only [List.length_nil] at h1
      omega
    · show (x :: y :: rest).drop ((rest.length + 3) / 2) ≠ []
      intro e
      rw [e] at h2
      simp only [List.length_nil] at h2
      omega
    · show ((x :: y :: rest).take ((rest.length + 3) / 2)).length < _
      rw [h1]; simp only [List.length_cons]; omega
    · show ((x :: y :: rest).drop ((rest.length + 3) / 2)).length < _
      rw [h2]; simp only [List.length_cons]; omega

/-- C19 on a list of three entries: the front half has two, the back half
one. -/
theorem splitList_halves_witness :
    2 ≤ exampleCatalog.head.length ∧
    (splitList exampleCatalog.head).1 ++ (splitList exampleCatalog.head).2 =
      exampleCatalog.head ∧
    (splitList exampleCatalog.head).1.length = (exampleCatalog.head.length + 1) / 2 ∧
    (splitList exampleCatalog.head).2.length = exampleCatalog.head.length / 2 ∧
    (splitList exampleCatalog.head).1 ≠ [] ∧ (splitList exampleCatalog.head).2 ≠ [] ∧
    (splitList exampleCatalog.head).1.length < exampleCatalog.head.length ∧
    (splitList exampleCatalog.head).2.length < exampleCatalog.head.length ∧
    mergeSort exampleCatalog.head =
      mergeSortedLists (mergeSort (splitList exampleCatalog.head).1)
        (mergeSort (splitList exampleCatalog.head).2) :=
  ⟨by decide, splitList_halves exampleCatalog.head (by decide)⟩

/-! ## Sorting and the hash table -/

/-- The sort and the index. `sortMenuByPrice` leaves the hash table, the
id counter and the allocation count as they are and only permutes the catalog
list, so a lookup that is defined before the sort returns the same after it.
In a state that the catalog calls reach from a new system, the lookup of a
catalog id after the sort is the address of that entry, and the lookup of an
absent non-negative id is `nullptr`. -/
theorem sortMenuByPrice_index_untouched :
    (∀ s : FoodDeliverySystem,
      s.sortMenuByPrice.itemHashTable = s.itemHashTable ∧
      s.sortMenuByPrice.nextId = s.nextId ∧
      s.sortMenuByPrice.allocated = s.allocated ∧
      s.sortMenuByPrice.head.Perm s.head ∧
      ∀ (id : Int) (r : Option Ptr), s.findFoodById id = some r →
        s.sortMenuByPrice.findFoodById id = some r) ∧
    (∀ (ops : List Op) (s : FoodDeliverySystem) (ids : List Int),
      FoodDeliverySystem.init.run ops = some (s, ids) →
        (∀ f ∈ s.head, s.findFoodById f.id = some (some f.addr) ∧
          s.sortMenuByPrice.findFoodById f.id = some (some f.addr)) ∧
        (∀ id : Int, 0 ≤ id → (∀ f ∈ s.head, f.id ≠ id) →
          s.findFoodById id = some none ∧
          s.sortMenuByPrice.findFoodById id = some none)) := by
  have frame : ∀ (s : FoodDeliverySystem) (id : Int),
      s.sortMenuByPrice.findFoodById id = s.findFoodById id := by
    intro s id
    rw [sortMenuByPrice_eq]
    rfl
  constructor
  · intro s
    refine ⟨by rw [sortMenuByPrice_eq], by rw [sortMenuByPrice_eq], by rw [sortMenuByPrice_eq],
      ?_, fun id r h => by rw [frame]; exact h⟩
    rw [sortMenuByPrice_head]; exact mergeSort_perm s.head
  · intro ops s ids h
    have hs := (FoodDeliverySystem.inv_init.run h).1
    refine ⟨fun f hf => ⟨hs.findFoodById_mem hf, ?_⟩,
      fun id hpos hno => ⟨hs.findFoodById_not_mem hpos hno, ?_⟩⟩
    · rw [frame]; exact hs.findFoodById_mem hf
    · rw [frame]; exact hs.findFoodById_not_mem hpos hno

/-- C15, at the input where the code departs from it. No entry of
`exampleCatalog` carries the id `-1`, and `sortMenuByPrice` reorders its list
(Milk, Bun, Tea becomes Bun, Milk, Tea). `findFoodById(-1)` does not return
`nullptr`, neither before the sort nor after it: `hashFunction(-1)` is `-1`,
so `search` reads `table[-1]`, outside the bucket array. -/
theorem sortMenuByPrice_negative_id :
    (∀ f ∈ exampleCatalog.head, f.id ≠ -1) ∧
    exampleCatalog.head = [⟨2, 3, "Milk", 2⟩, ⟨1, 2, "Bun", 1⟩, ⟨0, 1, "Tea", 2⟩] ∧
    exampleCatalog.sortMenuByPrice.head =
      [⟨1, 2, "Bun", 1⟩, ⟨2, 3, "Milk", 2⟩, ⟨0, 1, "Tea", 2⟩] ∧
    HashTable.hashFunction (-1) = -1 ∧
    exampleCatalog.findFoodById (-1) = none ∧
    exampleCatalog.sortMenuByPrice.findFoodById (-1) = none ∧
    exampleCatalog.sortMenuByPrice.findFoodById (-1) ≠ some none := by
  have hfind : exampleCatalog.sortMenuByPrice.findFoodById (-1) = none := by
    rw [sortMenuByPrice_eq]
    decide
  have hhead : exampleCatalog.head =
      [⟨2, 3, "Milk", 2⟩, ⟨1, 2, "Bun", 1⟩, ⟨0, 1, "Tea", 2⟩] := by decide
  refine ⟨by decide, hhead, ?_, by decide, by decide, hfind, by rw [hfind]; decide⟩
  rw [sortMenuByPrice_head, hhead]
  simp [mergeSort, splitList, splitListLoop, mergeSortedLists]

/-! ## Catalog and hash table: all buckets together -/

theorem flatten_perm_of_index {β : Type} (g : Nat → List β) :
    ∀ (tbl : List (List β)) (k : Nat),
      (∀ (i : Nat) (c : List β), tbl[i]? = some c → c.Perm (g (k + i))) →
      tbl.flatten.Perm ((List.map g (List.range' k tbl.length)).flatten)
  | [], _, _ => by simp
  | c :: tbl, k, h => by
    rw [List.length_cons, List.range'_succ, List.map_cons, List.flatten_cons, List.flatten_cons]
    refine List.Perm.append (h 0 c (by simp)) (flatten_perm_of_index g tbl (k + 1) fun i c1 hc => ?_)
    have := h (i + 1) c1 (by simpa using hc)
    rwa [show k + 1 + i = k + (i + 1) by omega]

theorem flatten_filter_perm {α : Type} (h : α → Nat) :
    ∀ (n : Nat) (l : List α), (∀ x ∈ l, h x < n) →
      ((List.map (fun i => l.filter (fun x => decide (h x = i))) (List.range n)).flatten).Perm l
  | 0, l, hl => by
    cases l with
    | nil => simp
    | cons x l => exact absurd (hl x (List.mem_cons_self _ _)) (Nat.not_lt_zero _)
  | n + 1, l, hl => by
    rw [List.range_succ, List.map_append, List.flatten_append, List.map_singleton,
      List.flatten_singleton]
    have hrest : List.map (fun i => l.filter (fun x => decide (h x = i))) (List.range n) =
        List.map (fun i => (l.filter (fun x => decide (h x ≠ n))).filter
          (fun x => decide (h x = i))) (List.range n) := by
      refine List.map_congr_left fun i hi => ?_
      rw [List.filter_filter]
      refine List.filter_congr fun x _ => ?_
      have hin : i < n := List.mem_range.mp hi
      by_cases e : h x = i
      · have : h x ≠ n := by omega
        simp [e, this]
        omega
      · simp [e]
    rw [hrest]
    have ih := flatten_filter_perm h n (l.filter (fun x => decide (h x ≠ n))) (by
      intro x hx
      have h1 := hl x (List.mem_filter.mp hx).1
      have h2 : h x ≠ n := by simpa using (List.mem_filter.mp hx).2
      omega)
    refine (List.Perm.append_right _ ih).trans ?_
    have hp := List.filter_append_perm (fun x => decide (h x ≠ n)) l
    refine (List.Perm.of_eq ?_).trans hp
    congr 1
    refine List.filter_congr fun x _ => ?_
    by_cases e : h x = n <;> simp [e]

theorem FoodDeliverySystem.Inv.flatten_perm {s : FoodDeliverySystem} (hs : s.Inv) :
    s.itemHashTable.table.flatten.Perm (s.head.map FoodItem.node) := by
  have h1 := flatten_perm_of_index
    (fun i => (s.head.filter
      (fun f => decide ((HashTable.hashFunction f.id).toNat = i))).map FoodItem.node)
    s.itemHashTable.table 0 (by
      intro i c hc
      refine (hs.index i c hc).trans (List.Perm.of_eq ?_)
      congr 1
      refine List.filter_congr fun f hf => ?_
      have hpos : 0 ≤ f.id := le_trans (by decide) (hs.id_lt f hf).1
      rw [Nat.zero_add]
      by_cases e : HashTable.hashFunction f.id = (i : Int)
      · simp [e]
      · have : ¬ (HashTable.hashFunction f.id).toNat = i :=
          fun e1 => e ((hashFunction_toNat hpos i).mp e1)
        simp [e, this])
  rw [hs.size, ← List.range_eq_range'] at h1
  refine h1.trans ?_
  have h2 := flatten_filter_perm (fun f : FoodItem => (HashTable.hashFunction f.id).toNat)
    HASH_TABLE_SIZE s.head (fun f hf =>
      (hashFunction_nonneg (le_trans (by decide) (hs.id_lt f hf).1)).2)
  have h3 := h2.map FoodItem.node
  rw [List.map_flatten, List.map_map] at h3
  exact h3

/-- C14. Hash table and catalog in lockstep. In every state that `addFood`,
`editFood`, `deleteFood` and `sortMenuByPrice` calls reach from a new system,
the nodes of all bucket chains together are, up to order, exactly the nodes
`(id, address)` of the catalog entries, one node for each entry: no node
without a catalog entry, and no two nodes with the same key. Every node lies
in the bucket that `hashFunction` gives for its key, and `search` of the key
returns the address of the entry. -/
theorem hashTable_lockstep (ops : List Op) (s : FoodDeliverySystem) (ids : List Int)
    (h : FoodDeliverySystem.init.run ops = some (s, ids)) :
    s.itemHashTable.table.length = HASH_TABLE_SIZE ∧
    s.itemHashTable.table.flatten.Perm (s.head.map FoodItem.node) ∧
    (s.itemHashTable.table.flatten.map HashNode.key).Nodup ∧
    s.itemHashTable.table.flatten.length = s.head.length ∧
    (∀ (i : Nat) (chain : List HashNode), s.itemHashTable.table[i]? = some chain →
      ∀ n ∈ chain, HashTable.hashFunction n.key = (i : Int)) ∧
    (∀ n ∈ s.itemHashTable.table.flatten,
      ∃ f ∈ s.head, n.key = f.id ∧ n.value = f.addr ∧
        s.itemHashTable.search n.key = some (some f.addr)) := by
  have hs := (FoodDeliverySystem.inv_init.run h).1
  have hp := hs.flatten_perm
  refine ⟨hs.size, hp, ?_, ?_, ?_, ?_⟩
  · rw [(hp.map HashNode.key).nodup_iff, List.map_map]
    exact hs.id_nodup
  · rw [hp.length_eq, List.length_map]
  · intro i chain hc n hn
    rw [(hs.index i chain hc).mem_iff] at hn
    obtain ⟨f, hf, rfl⟩ := List.mem_map.mp hn
    simpa using (List.mem_filter.mp hf).2
  · intro n hn
    rw [hp.mem_iff] at hn
    obtain ⟨f, hf, rfl⟩ := List.mem_map.mp hn
    exact ⟨f, hf, rfl, rfl, hs.findFoodById_mem hf⟩

/-- C14 on `exampleCatalog`. -/
theorem hashTable_lockstep_witness :
    FoodDeliverySystem.init.run exampleOps = some (exampleCatalog, [1, 2, 3]) ∧
    exampleCatalog.itemHashTable.table.length = HASH_TABLE_SIZE ∧
    exampleCatalog.itemHashTable.table.flatten.Perm (exampleCatalog.head.map FoodItem.node) ∧
    (exampleCatalog.itemHashTable.table.flatten.map HashNode.key).Nodup ∧
    exampleCatalog.itemHashTable.table.flatten.length = exampleCatalog.head.length ∧
    (∀ (i : Nat) (chain : List HashNode),
      exampleCatalog.itemHashTable.table[i]? = some chain →
        ∀ n ∈ chain, HashTable.hashFunction n.key = (i : Int)) ∧
    (∀ n ∈ exampleCatalog.itemHashTable.table.flatten,
      ∃ f ∈ exampleCatalog.head, n.key = f.id ∧ n.value = f.addr ∧
        exampleCatalog.itemHashTable.search n.key = some (some f.addr)) :=
  ⟨by decide, hashTable_lockstep exampleOps exampleCatalog [1, 2, 3] (by decide)⟩

/-! ## Catalog: delete and edit on a present id -/

theorem FoodDeliverySystem.Inv.eq_of_id_eq {s : FoodDeliverySystem} (hs : s.Inv)
    {f g : FoodItem} (hf : f ∈ s.head) (hg : g ∈ s.head) (e : g.id = f.id) : g = f :=
  List.inj_on_of_nodup_map hs.id_nodup hg hf e

theorem FoodDeliverySystem.Inv.eq_of_addr_eq {s : FoodDeliverySystem} (hs : s.Inv)
    {f g : FoodItem} (hf : f ∈ s.head) (hg : g ∈ s.head) (e : g.addr = f.addr) : g = f :=
  List.inj_on_of_nodup_map hs.addr_nodup hg hf e

theorem FoodDeliverySystem.Inv.erase_eq_filter {s : FoodDeliverySystem} (hs : s.Inv)
    {f : FoodItem} (hf : f ∈ s.head) :
    s.head.erase f = s.head.filter (fun g => decide (g.id ≠ f.id)) := by
  rw [(List.Nodup.of_map _ hs.id_nodup).erase_eq_filter]
  refine List.filter_congr fun g hg => ?_
  by_cases e : g = f
  · subst e; simp
  · have : g.id ≠ f.id := fun e1 => e (hs.eq_of_id_eq hf hg e1)
    simp [e, this]

/-- C11. `deleteFood` on a hit removes exactly one entry. In every state that
the catalog calls reach from a new system, `deleteFood` of the id of a
catalog entry `f` succeeds; the catalog list afterwards is the list before
with `f` removed, all other entries in their order; `findFoodById` of the id
then returns `nullptr`, and `findFoodById` of every other catalog id returns
what it returned before, the address of its entry. -/
theorem deleteFood_hit (ops : List Op) (s : FoodDeliverySystem) (ids : List Int)
    (h : FoodDeliverySystem.init.run ops = some (s, ids)) (f : FoodItem) (hf : f ∈ s.head) :
    ∃ s1, s.deleteFood f.id = some (s1, Status.success) ∧
      s1.head = s.head.erase f ∧
      s1.head = s.head.filter (fun g => decide (g.id ≠ f.id)) ∧
      s1.head.length + 1 = s.head.length ∧
      (∀ g ∈ s.head, g ≠ f → g ∈ s1.head) ∧
      s1.nextId = s.nextId ∧
      s1.findFoodById f.id = some none ∧
      (∀ g ∈ s1.head, s1.findFoodById g.id = s.findFoodById g.id ∧
        s1.findFoodById g.id = some (some g.addr)) := by
  have hs := (FoodDeliverySystem.inv_init.run h).1
  obtain ⟨s1, e, h1, hhead, hn, -⟩ := hs.deleteFood_mem hf
  have herase : s1.head = s.head.erase f := by rw [hhead, hs.erase_eq_filter hf]
  refine ⟨s1, e, herase, hhead, ?_, ?_, hn, ?_, ?_⟩
  · rw [herase, List.length_erase_of_mem hf]
    have : 0 < s.head.length := List.length_pos_of_mem hf
    omega
  · intro g hg hne
    rw [herase]
    exact (List.mem_erase_of_ne hne).mpr hg
  · refine h1.findFoodById_not_mem (le_trans (by decide) (hs.id_lt f hf).1) fun g hg => ?_
    rw [hhead] at hg
    simpa using (List.mem_filter.mp hg).2
  · intro g hg
    have hg0 : g ∈ s.head := by
      rw [hhead] at hg
      exact (List.mem_filter.mp hg).1
    rw [h1.findFoodById_mem hg, hs.findFoodById_mem hg0]
    exact ⟨rfl, rfl⟩

/-- C11 on `exampleCatalog` and its entry Bun (id 2). -/
theorem deleteFood_hit_witness :
    FoodDeliverySystem.init.run exampleOps = some (exampleCatalog, [1, 2, 3]) ∧
    (⟨1, 2, "Bun", 1⟩ : FoodItem) ∈ exampleCatalog.head ∧
    ∃ s1, exampleCatalog.deleteFood 2 = some (s1, Status.success) ∧
      s1.head = exampleCatalog.head.erase ⟨1, 2, "Bun", 1⟩ ∧
      s1.head = exampleCatalog.head.filter (fun g => decide (g.id ≠ 2)) ∧
      s1.head.length + 1 = exampleCatalog.head.length ∧
      (∀ g ∈ exampleCatalog.head, g ≠ ⟨1, 2, "Bun", 1⟩ → g ∈ s1.head) ∧
      s1.nextId = exampleCatalog.nextId ∧
      s1.findFoodById 2 = some none ∧
      (∀ g ∈ s1.head, s1.findFoodById g.id = exampleCatalog.findFoodById g.id ∧
        s1.findFoodById g.id = some (some g.addr)) :=
  ⟨by decide, by decide,
    deleteFood_hit exampleOps exampleCatalog [1, 2, 3] (by decide) ⟨1, 2, "Bun", 1⟩ (by decide)⟩

/-- In every state that the catalog calls reach from a new system, `editFood`
of the id of a catalog entry sets the name and the price of that entry and
leaves its id, its address, its place in the list, every other entry, the
hash table and the id counter as they are; `editFood` of a non-negative id
that no entry carries reports `not found` and changes nothing. -/
theorem editFood_frame (ops : List Op) (s : FoodDeliverySystem) (ids : List Int)
    (h : FoodDeliverySystem.init.run ops = some (s, ids)) (name : String) (price : ℚ) :
    (∀ f ∈ s.head, s.editFood f.id name price =
      some ({ s with head := s.head.map (fun g =>
        if g.id = f.id then { g with name := name, price := price } else g) },
        Status.success)) ∧
    (∀ id : Int, 0 ≤ id → (∀ f ∈ s.head, f.id ≠ id) →
      s.editFood id name price = some (s, Status.notFound)) := by
  have hs := (FoodDeliverySystem.inv_init.run h).1
  constructor
  · intro f hf
    have h1 : s.itemHashTable.search f.id = some (some f.addr) := hs.findFoodById_mem hf
    have h2 : (s.head.any fun g => decide (g.addr = f.addr)) = true :=
      List.any_eq_true.mpr ⟨f, hf, by simp⟩
    have h3 : s.head.map (fun g =>
          if g.addr = f.addr then { g with name := name, price := price } else g) =
        s.head.map (fun g =>
          if g.id = f.id then { g with name := name, price := price } else g) := by
      refine List.map_congr_left fun g hg => ?_
      by_cases e : g = f
      · subst e; simp
      · have e1 : g.addr ≠ f.addr := fun e1 => e (hs.eq_of_addr_eq hf hg e1)
        have e2 : g.id ≠ f.id := fun e2 => e (hs.eq_of_id_eq hf hg e2)
        simp [e1, e2]
    simp only [FoodDeliverySystem.editFood, h1, FoodDeliverySystem.assign, h2, if_true, h3]
  · intro id hpos hno
    have h1 : s.itemHashTable.search id = some none := hs.findFoodById_not_mem hpos hno
    simp only [FoodDeliverySystem.editFood, h1]

/-- C12, at the input where the code departs from it. No entry of
`exampleCatalog` carries the id `-1`, and `editFood(-1)` does not report
`not found`: its `search(-1)` reads `table[-1]`, outside the bucket array. -/
theorem editFood_negative_id :
    (∀ f ∈ exampleCatalog.head, f.id ≠ -1) ∧
    exampleCatalog.editFood (-1) "Cake" 3 = none ∧
    exampleCatalog.editFood (-1) "Cake" 3 ≠ some (exampleCatalog, Status.notFound) := by
  decide

/-! ## The menu loop: catalog and queue together -/

theorem MainState.step_inv {m m1 : MainState} {c : Choice} (hs : m.fds.Inv)
    (hq : m.orderQueue.Reachable) (h : m.step c = some m1) :
    m1.fds.Inv ∧ m1.orderQueue.Reachable := by
  cases c with
  | catalog op =>
    simp only [MainState.step] at h
    split at h
    · cases h
    · rename_i s1 ids e
      simp only [Option.some.injEq] at h
      subst h
      exact ⟨(hs.step e).1, hq⟩
  | placeOrder id =>
    simp only [MainState.step] at h
    split at h
    · cases h
    · split at h
      · cases h
      · rename_i q1 st e
        simp only [Option.some.injEq] at h
        subst h
        exact ⟨hs, OrderQueue.Reachable.addOrder hq e⟩
  | displayOrders =>
    simp only [MainState.step] at h
    split at h
    · cases h
    · simp only [Option.some.injEq] at h
      subst h
      exact ⟨hs, hq⟩
  | dispatchOrder =>
    simp only [MainState.step] at h
    split at h
    · cases h
    · rename_i q1 r e
      simp only [Option.some.injEq] at h
      subst h
      exact ⟨hs, OrderQueue.Reachable.dispatchOrder hq e⟩

theorem MainState.run_inv : ∀ (cs : List Choice) {m m1 : MainState}, m.fds.Inv →
    m.orderQueue.Reachable → m.run cs = some m1 → m1.fds.Inv ∧ m1.orderQueue.Reachable
  | [], m, m1, hs, hq, h => by
    simp only [MainState.run, Option.some.injEq] at h
    subst h
    exact ⟨hs, hq⟩
  | c :: cs, m, m1, hs, hq, h => by
    simp only [MainState.run] at h
    split at h
    · cases h
    · rename_i m2 e
      obtain ⟨hs2, hq2⟩ := MainState.step_inv hs hq e
      exact MainState.run_inv cs hs2 hq2 h

theorem MainState.run_append : ∀ (cs cs1 : List Choice) (m m1 : MainState),
    m.run cs = some m1 → m.run (cs ++ cs1) = m1.run cs1
  | [], cs1, m, m1, h => by
    simp only [MainState.run, Option.some.injEq] at h
    subst h
    rfl
  | c :: cs, cs1, m, m1, h => by
    simp only [MainState.run] at h
    split at h
    · cases h
    · rename_i m2 e
      simp only [List.cons_append, MainState.run, e]
      exact MainState.run_append cs cs1 m2 m1 h

/-- C7, at the input where the code departs from it. The menu choices
`releasedItemChoices` run to a state whose queue holds the pointers to Burger
and to Fries, in that order, while the catalog holds Fries only: `deleteFood`
released the `FoodItem` of Burger and left the pointer to it in the queue.
`Dispatch Next Order` does not remove and return Burger then: it reads
`temp->item->name` from the released object, which is undefined. So is
`View Pending Orders`. -/
theorem dispatchOrder_released_item :
    ∃ m : MainState, MainState.init.run releasedItemChoices = some m ∧
      m.fds.head = [⟨1, 2, "Fries", 2⟩] ∧
      m.orderQueue.pending = [0, 1] ∧
      m.orderQueue.Reachable ∧
      m.fds.live 0 = false ∧
      m.orderQueue.dispatchOrder m.fds.live = none ∧
      m.orderQueue.displayOrders m.fds.live = none ∧
      m.step Choice.dispatchOrder = none ∧
      MainState.init.run (releasedItemChoices ++ [Choice.dispatchOrder]) = none := by
  refine ⟨_, rfl, by decide, by decide, ?_, by decide, rfl, rfl, rfl, rfl⟩
  exact (MainState.run_inv releasedItemChoices
    (show MainState.init.fds.Inv from FoodDeliverySystem.inv_init)
    (show MainState.init.orderQueue.Reachable from OrderQueue.Reachable.init) rfl).2

/-- C20. Deleting a queued item does not touch the order queue. In every
state that menu choices reach from the start of `main`, for every catalog
entry `f`: `Place New Order` with the id of `f` appends the address of `f` to
the pending orders, and `deleteFood` of that id afterwards leaves the order
queue exactly as it is. In the state reached, `findFoodById` of the id
returns `nullptr` and no catalog entry lives at the queued address: the
queue holds a reference to an entry that is no longer in the catalog. -/
theorem deleteFood_leaves_queue (cs : List Choice) (m : MainState)
    (h : MainState.init.run cs = some m) (f : FoodItem) (hf : f ∈ m.fds.head) :
    ∃ m1 m2, m.step (Choice.placeOrder f.id) = some m1 ∧
      m1.step (Choice.catalog (Op.deleteFood f.id)) = some m2 ∧
      MainState.init.run
        (cs ++ [Choice.placeOrder f.id, Choice.catalog (Op.deleteFood f.id)]) = some m2 ∧
      m1.orderQueue.pending = m.orderQueue.pending ++ [f.addr] ∧
      m2.orderQueue = m1.orderQueue ∧
      f.addr ∈ m2.orderQueue.pending ∧
      m2.fds.findFoodById f.id = some none ∧
      (∀ g ∈ m2.fds.head, g.addr ≠ f.addr) := by
  obtain ⟨hs, hq⟩ := MainState.run_inv cs FoodDeliverySystem.inv_init
    OrderQueue.Reachable.init h
  obtain ⟨items, hitems⟩ := hq.holds
  have hlive : m.fds.live f.addr = true :=
    List.any_eq_true.mpr ⟨f, hf, decide_eq_true rfl⟩
  obtain ⟨q1, e1, h1⟩ := hitems.addOrder m.fds.live f.addr hlive
  have hfind := hs.findFoodById_mem hf
  obtain ⟨s1, e2, hs1, hhead, -, -⟩ := hs.deleteFood_mem hf
  have step1 : m.step (Choice.placeOrder f.id) = some { m with orderQueue := q1 } := by
    simp only [MainState.step, hfind, e1]
  have step2 : MainState.step { m with orderQueue := q1 } (Choice.catalog (Op.deleteFood f.id)) =
      some { fds := s1, orderQueue := q1 } := by
    simp only [MainState.step, FoodDeliverySystem.step, e2]
  refine ⟨_, _, step1, step2, ?_, ?_, rfl, ?_, ?_, ?_⟩
  · rw [MainState.run_append cs _ _ m h]
    simp only [MainState.run, step1, step2]
  · show q1.pending = _
    rw [h1.pending_eq, hitems.pending_eq]
  · show f.addr ∈ q1.pending
    rw [h1.pending_eq]
    simp
  · show s1.findFoodById f.id = some none
    refine hs1.findFoodById_not_mem (le_trans (by decide) (hs.id_lt f hf).1) fun g hg => ?_
    rw [hhead] at hg
    simpa using (List.mem_filter.mp hg).2
  · intro g hg e
    have hg1 : g ∈ s1.head := hg
    rw [hhead] at hg1
    have hg0 := (List.mem_filter.mp hg1).1
    have hne : g.id ≠ f.id := by simpa using (List.mem_filter.mp hg1).2
    exact hne (congrArg FoodItem.id (hs.eq_of_addr_eq hf hg0 e))

/-- C20 on the catalog `exampleCatalog` with an empty queue and the entry Bun
(id 2, address 1). -/
theorem deleteFood_leaves_queue_witness :
    MainState.init.run (exampleOps.map Choice.catalog) =
      some { fds := exampleCatalog, orderQueue := OrderQueue.init } ∧
    (⟨1, 2, "Bun", 1⟩ : FoodItem) ∈ exampleCatalog.head ∧
    ∃ m1 m2,
      MainState.step { fds := exampleCatalog, orderQueue := OrderQueue.init }
        (Choice.placeOrder 2) = some m1 ∧
      m1.step (Choice.catalog (Op.deleteFood 2)) = some m2 ∧
      MainState.init.run
        (exampleOps.map Choice.catalog ++
          [Choice.placeOrder 2, Choice.catalog (Op.deleteFood 2)]) = some m2 ∧
      m1.orderQueue.pending = OrderQueue.init.pending ++ [1] ∧
      m2.orderQueue = m1.orderQueue ∧
      1 ∈ m2.orderQueue.pending ∧
      m2.fds.findFoodById 2 = some none ∧
      (∀ g ∈ m2.fds.head, g.addr ≠ 1) :=
  ⟨rfl, by decide,
    deleteFood_leaves_queue (exampleOps.map Choice.catalog)
      { fds := exampleCatalog, orderQueue := OrderQueue.init } rfl
      ⟨1, 2, "Bun", 1⟩ (by decide)⟩

/-! ## The scenario of the specification -/

theorem scenarioAdded_head :
    scenarioAdded.head =
      [⟨2, 3, "Soda", 1.5⟩, ⟨1, 2, "Fries", 2⟩, ⟨0, 1, "Burger", 5.5⟩] := by
  decide!

/-- The scenario catalog is in price order before the sort, so the sort
leaves it as it is. -/
theorem scenarioSorted_eq : scenarioSorted = scenarioAdded := by
  have h : scenarioAdded.head.Pairwise (fun x y => x.price ≤ y.price) := by
    rw [scenarioAdded_head]; decide!
  rw [scenarioSorted, sortMenuByPrice_eq, mergeSort_of_pairwise _ h]

theorem scenarioDeleted_def :
    scenarioDeleted = ((scenarioAdded.deleteFood 2).map Prod.fst).getD scenarioAdded := by
  unfold scenarioDeleted
  rewrite [scenarioSorted_eq]
  exact Eq.refl _

theorem scenarioDeleted_eq :
    scenarioAdded.deleteFood 2 = some (scenarioDeleted, Status.success) ∧
    scenarioDeleted.head = [⟨2, 3, "Soda", 1.5⟩, ⟨0, 1, "Burger", 5.5⟩] ∧
    scenarioDeleted.findFoodById 2 = some none ∧
    scenarioDeleted.findFoodById 1 = some (some 0) ∧
    scenarioDeleted.findFoodById 3 = some (some 2) := by
  rewrite [scenarioDeleted_def]
  decide!

/-- Burger lives in the scenario state: the catalog holds a node at its
address. -/
theorem scenarioDeleted_live : scenarioDeleted.live 0 = true := by
  unfold FoodDeliverySystem.live
  rw [scenarioDeleted_eq.2.1]
  decide

/-- C16. The scenario, catalog part. On a new system the three `addFood`
calls Burger 5.50, Fries 2.00, Soda 1.50 return the ids 1, 2, 3 and give the
catalog order Soda, Fries, Burger; `sortMenuByPrice` gives Soda (1.50),
Fries (2.00), Burger (5.50); `deleteFood(2)` then succeeds and removes Fries,
and `findFoodById(2)` returns `nullptr`. -/
theorem scenario_catalog :
    FoodDeliverySystem.init.run scenarioOps = some (scenarioAdded, [1, 2, 3]) ∧
    scenarioAdded.head =
      [⟨2, 3, "Soda", 1.5⟩, ⟨1, 2, "Fries", 2⟩, ⟨0, 1, "Burger", 5.5⟩] ∧
    scenarioSorted.head =
      [⟨2, 3, "Soda", 1.5⟩, ⟨1, 2, "Fries", 2⟩, ⟨0, 1, "Burger", 5.5⟩] ∧
    scenarioSorted.deleteFood 2 = some (scenarioDeleted, Status.success) ∧
    scenarioDeleted.head = [⟨2, 3, "Soda", 1.5⟩, ⟨0, 1, "Burger", 5.5⟩] ∧
    scenarioDeleted.findFoodById 2 = some none := by
  refine ⟨by decide!, scenarioAdded_head, ?_, ?_, scenarioDeleted_eq.2.1,
    scenarioDeleted_eq.2.2.1⟩
  · rw [scenarioSorted_eq]; exact scenarioAdded_head
  · rw [scenarioSorted_eq]; exact scenarioDeleted_eq.1

/-- C17 as stated fails: in the scenario state `findFoodById(1)` is the
address of Burger, the entry that was added first; `addOrder` of it on a new
queue followed by `dispatchOrder`, with the objects of the scenario state
live, returns that address, and the entry of the catalog at that address is
not Soda. -/
theorem scenario_dequeue_not_soda :
    scenarioDeleted.findFoodById 1 = some (some 0) ∧
    ((OrderQueue.init.addOrder scenarioDeleted.live (some 0)).bind
      (fun r => r.1.dispatchOrder scenarioDeleted.live)).map Prod.snd = some (some 0) ∧
    (∀ f ∈ scenarioDeleted.head, f.addr = 0 → f.name ≠ "Soda") ∧
    (∀ f ∈ scenarioDeleted.head, f.name = "Soda" → f.addr ≠ 0) := by
  refine ⟨scenarioDeleted_eq.2.2.2.1, ?_, ?_, ?_⟩
  · obtain ⟨q1, e1, h1⟩ := OrderQueue.holds_init.addOrder _ 0 scenarioDeleted_live
    obtain ⟨q2, e2, h2⟩ := h1.dispatchOrder_cons _ scenarioDeleted_live
    simp only [e1, Option.some_bind, e2, Option.map_some']
  · rw [scenarioDeleted_eq.2.1]; decide
  · rw [scenarioDeleted_eq.2.1]; decide

/-- C17, amended. In the scenario state `findFoodById(1)` is the address of
Burger, the entry with id 1; `addOrder` of it on a new queue followed by
`dispatchOrder` returns the Burger reference and leaves the queue empty. The
`FoodItem` objects that live during the calls are those of the scenario
state. -/
theorem scenario_queue :
    scenarioDeleted.findFoodById 1 = some (some 0) ∧
    (∀ f ∈ scenarioDeleted.head, f.addr = 0 ↔ f = ⟨0, 1, "Burger", 5.5⟩) ∧
    ∃ q1 q2,
      OrderQueue.init.addOrder scenarioDeleted.live (some 0) = some (q1, Status.success) ∧
      q1.pending = [0] ∧
      q1.dispatchOrder scenarioDeleted.live = some (q2, some 0) ∧
      q2.front = none ∧ q2.rear = none ∧ q2.pending = [] := by
  refine ⟨scenarioDeleted_eq.2.2.2.1, ?_, ?_⟩
  · rw [scenarioDeleted_eq.2.1]; decide!
  · obtain ⟨q1, e1, h1⟩ := OrderQueue.holds_init.addOrder _ 0 scenarioDeleted_live
    obtain ⟨q2, e2, h2⟩ := h1.dispatchOrder_cons _ scenarioDeleted_live
    exact ⟨q1, q2, e1, h1.pending_eq, e2, h2.empty.1, h2.empty.2, h2.pending_eq⟩

end Sem4
